import Mathlib

/-!
# got: the graph-description front end of `main.go`

`main.go` declares a five-rule stateful lexer (`lexer.MustStateful`), a grammar
written as struct tags (`Program`, `Node`, `ComputeNode`, `AgentNode`) and calls
`parser.ParseString("", input)`.

The embedding below follows that pipeline:

* `Position`, `Token`: the lexer's position and token records.
* `Root`: the rule table, each regular expression rendered as a matcher that
  returns the matched span and the remaining text (anchored at the scan position).
* `lexTokens`, `Tokenize`: the scan loop; the whole input is tokenized before
  the grammar runs, and the first position where no rule matches aborts.
* `Elide`, `Lex`: the tokens the lexer returns and the grammar sees; matches of
  the rules `comment` and `whitespace` are consumed without a token.
* `literal`, `reference`, `Parsed.next`, `Parsed.must`: the grammar nodes used by
  the tags (quoted literal, `@Ident`/`@String`, sequencing).
* `parseNode`, `parseNodes`, `parseProgram`, `ParseString`: the grammar of the tags.

Text is `List Char` (one `Char` per rune); byte offsets use the UTF-8 width.
Go returns `(program, err)`; `main` looks at `err` first, so `ParseResult` is a
sum over the error. `ParseResult.programReturned` and `ParseResult.errorReturned`
say which members of the pair are non-nil: an error of the grammar is returned
together with a partial program. The content of a parse error (message,
position) and of a partial program is not modelled.

The lexer and grammar engine is the library `participle/v2`; what `main.go`
configures of it is modelled here: rules are tried in table order, anchored at the
scan position; quoted literals match a token by its text; captured token texts
are stored as matched (no `Unquote` option is given); several tokens captured
into one string field are concatenated; a repetition ends at the first
non-match and is capped by the package variable `MaxIterations`.
-/

namespace Got

/-! ## Lexer -/

/-- Number of bytes of a rune in UTF-8. -/
def utf8Width (c : Char) : Nat :=
  if c.toNat < 0x80 then 1
  else if c.toNat < 0x800 then 2
  else if c.toNat < 0x10000 then 3
  else 4

/-- Byte length of a span, Go's `len(span)`. -/
def byteLen : List Char → Nat
  | [] => 0
  | c :: cs => utf8Width c + byteLen cs

/-- Source position `lexer.Position` (the file name is always empty here). -/
structure Position where
  Offset : Nat
  Line : Nat
  Column : Nat
deriving DecidableEq, Repr

/-- Position at which scanning starts: offset 0, line 1, column 1. -/
def Position.start : Position := ⟨0, 1, 1⟩

/-- Runes from the last newline of the span (inclusive) to its end. -/
def runesFromLastNewline (span : List Char) : Nat :=
  (span.reverse.takeWhile (fun c => c != '\n')).length + 1

/-- Method `Position.Advance`: move past `span`. The offset grows by the byte length,
the line by the number of newlines; the column grows by the rune count when the
span has no newline and restarts after the last newline otherwise. -/
def Position.Advance (p : Position) (span : List Char) : Position :=
  let lines := span.count '\n'
  { Offset := p.Offset + byteLen span
    Line := p.Line + lines
    Column := if lines = 0 then p.Column + span.length else runesFromLastNewline span }

/-- Token types, named after the rules of the table. End of input is the end of
the token list. -/
inductive TokenType where
  | comment
  | whitespace
  | String
  | Punct
  | Ident
deriving DecidableEq, Repr

/-- A token `lexer.Token`: its type (field `Type`, here `Kind`), its text and
where it starts. -/
structure Token where
  Kind : TokenType
  Value : List Char
  Pos : Position
deriving DecidableEq, Repr

/-- The lexer's error: no rule matches at `Pos`. -/
structure LexError where
  Pos : Position
deriving DecidableEq, Repr

/-- Class `\s` of the regular expressions: tab, newline, form feed, carriage
return, space. -/
def isSpace (c : Char) : Bool :=
  c == '\t' || c == '\n' || c == '\x0c' || c == '\r' || c == ' '

/-- Class `[a-zA-Z_]`. -/
def isIdentStart (c : Char) : Bool :=
  c.isAlpha || c == '_'

/-- Class `[a-zA-Z0-9_]`. -/
def isIdentChar (c : Char) : Bool :=
  c.isAlpha || c.isDigit || c == '_'

/-- Class `[{}:.]`. -/
def isPunct (c : Char) : Bool :=
  c == '\x7b' || c == '\x7d' || c == ':' || c == '.'

/-- Pattern `//[^\n]*\n`: two slashes, the rest of the line and its newline. -/
def matchComment : List Char → Option (List Char × List Char)
  | c1 :: c2 :: rest =>
    if c1 = '/' ∧ c2 = '/' then
      match rest.dropWhile (fun c => c != '\n') with
      | c3 :: after =>
        if c3 = '\n' then
          some ('/' :: '/' :: (rest.takeWhile (fun c => c != '\n') ++ ['\n']), after)
        else none
      | [] => none
    else none
  | _ => none

/-- Pattern `\s+`: a maximal non-empty run of whitespace. -/
def matchWhitespace : List Char → Option (List Char × List Char)
  | c :: rest =>
    if isSpace c then some (c :: rest.takeWhile isSpace, rest.dropWhile isSpace) else none
  | [] => none

/-- Pattern `"[^"]*"`: a quote, everything up to the next quote, that quote. -/
def matchString : List Char → Option (List Char × List Char)
  | c1 :: rest =>
    if c1 = '"' then
      match rest.dropWhile (fun c => c != '"') with
      | c2 :: after =>
        if c2 = '"' then some ('"' :: (rest.takeWhile (fun c => c != '"') ++ ['"']), after)
        else none
      | [] => none
    else none
  | [] => none

/-- Pattern `[{}:.]`: one punctuation character. -/
def matchPunct : List Char → Option (List Char × List Char)
  | c :: rest => if isPunct c then some ([c], rest) else none
  | [] => none

/-- Pattern `[a-zA-Z_][a-zA-Z0-9_]*`. -/
def matchIdent : List Char → Option (List Char × List Char)
  | c :: rest =>
    if isIdentStart c then some (c :: rest.takeWhile isIdentChar, rest.dropWhile isIdentChar)
    else none
  | [] => none

/-- One lexer rule: the token type it produces and its anchored pattern. -/
structure Rule where
  Name : TokenType
  Pattern : List Char → Option (List Char × List Char)

/-- The rule table `"Root"`, in the order written in `main`. -/
def Root : List Rule :=
  [ ⟨TokenType.comment, matchComment⟩,
    ⟨TokenType.whitespace, matchWhitespace⟩,
    ⟨TokenType.String, matchString⟩,
    ⟨TokenType.Punct, matchPunct⟩,
    ⟨TokenType.Ident, matchIdent⟩ ]

/-- First rule of the table whose pattern matches at the front of `data`. -/
def matchFirst : List Rule → List Char → Option (TokenType × List Char × List Char)
  | [], _ => none
  | r :: rs, data =>
    match r.Pattern data with
    | some (span, rest) => some (r.Name, span, rest)
    | none => matchFirst rs data

/-- The scan loop, recording every match. At the end of the data the list is
complete; where no rule matches the scan aborts with the current position;
otherwise the matched span is recorded with its rule and position, and the
position advances past it. Every match consumes at least one character, so
`fuel` above the length of the data is never used up. The list holds the matches
of all five rules; the lexer returns a token only for the rules `String`, `Punct`
and `Ident` (see `Lex`), the matches of `comment` and `whitespace` are consumed. -/
def lexTokens : Nat → Position → List Char → Except LexError (List Token)
  | _, _, [] => .ok []
  | 0, pos, _ :: _ => .error ⟨pos⟩
  | fuel + 1, pos, c :: cs =>
    match matchFirst Root (c :: cs) with
    | none => .error ⟨pos⟩
    | some (ty, span, rest) =>
      match lexTokens fuel (pos.Advance span) rest with
      | .ok toks => .ok (⟨ty, span, pos⟩ :: toks)
      | .error e => .error e

/-- All matches of the scan of a whole source text from the start position. -/
def Tokenize (source : List Char) : Except LexError (List Token) :=
  lexTokens (source.length + 1) Position.start source

/-- Whether a token type never reaches the grammar: the rules `comment` and
`whitespace` have lower-case names, for which the lexer consumes the text without
returning a token, and `participle.Elide("comment", "whitespace")` names the same
two types. -/
def isElided : TokenType → Bool
  | .comment => true
  | .whitespace => true
  | _ => false

/-- Token stream seen by the grammar. -/
def Elide (toks : List Token) : List Token :=
  toks.filter (fun t => !isElided t.Kind)

/-- The tokens the lexer returns for a source: the matches of the scan without
those of `comment` and `whitespace`, or the error of the scan. -/
def Lex (source : List Char) : Except LexError (List Token) :=
  match Tokenize source with
  | .ok toks => .ok (Elide toks)
  | .error e => .error e

/-! ## Syntax tree -/

/-- Anonymous struct `Body` of `ComputeNode`. -/
structure ComputeBody where
  Input : List Char
  Output : List Char
  Code : List Char
deriving DecidableEq, Repr

/-- A basic computation node. -/
structure ComputeNode where
  Name : List Char
  Body : ComputeBody
deriving DecidableEq, Repr

/-- Anonymous struct `Body` of `AgentNode`. -/
structure AgentBody where
  Watches : List Char
  CanAdd : List Char
  Code : List Char
deriving DecidableEq, Repr

/-- An agent node that can modify the graph. -/
structure AgentNode where
  Name : List Char
  Body : AgentBody
deriving DecidableEq, Repr

/-- A node has two pointer members, `Compute` and `Agent`; `none` is `nil`. -/
structure Node where
  Compute : Option ComputeNode
  Agent : Option AgentNode
deriving DecidableEq, Repr

/-- The root of the syntax tree. -/
structure Program where
  Nodes : List Node
deriving DecidableEq, Repr

/-! ## Grammar -/

/-- Outcome of a grammar node at a point of the token stream: a match with its
value and the remaining tokens, no match (nothing consumed), or an error. -/
inductive Parsed (α : Type) where
  | matched (v : α) (rest : List Token)
  | noMatch
  | failed
deriving DecidableEq, Repr

/-- First element of a sequence: when it does not match, the sequence does not
match; when it matches, the sequence continues with `k`. -/
def Parsed.next {α β : Type} (p : Parsed α) (k : α → List Token → Parsed β) : Parsed β :=
  match p with
  | .matched v rest => k v rest
  | .noMatch => .noMatch
  | .failed => .failed

/-- Later element of a sequence: when it does not match, the sequence fails with
an unexpected-token error. -/
def Parsed.must {α : Type} (p : Parsed α) : Parsed α :=
  match p with
  | .noMatch => .failed
  | q => q

/-- Quoted literal of a tag: the next token's text equals `s` (any token type). -/
def literal (s : List Char) : List Token → Parsed Unit
  | t :: rest => if t.Value = s then .matched () rest else .noMatch
  | [] => .noMatch

/-- Token reference of a tag (`Ident`, `String`): the next token has type `ty`;
its text is the value, as the lexer matched it. The parser of `main` is built
without the `Unquote` option, so a `String` token keeps its two quotes. -/
def reference (ty : TokenType) : List Token → Parsed (List Char)
  | t :: rest => if t.Kind = ty then .matched t.Value rest else .noMatch
  | [] => .noMatch

/-- Body of `ComputeNode`:
`'input' ':' @Ident`, `'output' ':' @Ident`, `'code' ':' @String`. -/
def parseComputeBody (toks : List Token) : Parsed ComputeBody :=
  (literal "input".toList toks).next fun _ r1 =>
  (literal ":".toList r1).must.next fun _ r2 =>
  (reference .Ident r2).must.next fun input r3 =>
  (literal "output".toList r3).must.next fun _ r4 =>
  (literal ":".toList r4).must.next fun _ r5 =>
  (reference .Ident r5).must.next fun output r6 =>
  (literal "code".toList r6).must.next fun _ r7 =>
  (literal ":".toList r7).must.next fun _ r8 =>
  (reference .String r8).must.next fun code r9 =>
  .matched ⟨input, output, code⟩ r9

/-- Struct `ComputeNode`: `@Ident` then the body between `'{'` and `'}'`. -/
def parseComputeNode (toks : List Token) : Parsed ComputeNode :=
  (reference .Ident toks).next fun name r1 =>
  (literal "\x7b".toList r1).must.next fun _ r2 =>
  (parseComputeBody r2).must.next fun body r3 =>
  (literal "\x7d".toList r3).must.next fun _ r4 =>
  .matched ⟨name, body⟩ r4

/-- Body of `AgentNode`: `'watches' ':' @(Ident '.' Ident)`, `'can_add' ':' @Ident`,
`'code' ':' @String`. The three tokens captured for `Watches` are joined into
the one string field. -/
def parseAgentBody (toks : List Token) : Parsed AgentBody :=
  (literal "watches".toList toks).next fun _ r1 =>
  (literal ":".toList r1).must.next fun _ r2 =>
  (reference .Ident r2).must.next fun a r3 =>
  (literal ".".toList r3).must.next fun _ r4 =>
  (reference .Ident r4).must.next fun b r5 =>
  (literal "can_add".toList r5).must.next fun _ r6 =>
  (literal ":".toList r6).must.next fun _ r7 =>
  (reference .Ident r7).must.next fun canAdd r8 =>
  (literal "code".toList r8).must.next fun _ r9 =>
  (literal ":".toList r9).must.next fun _ r10 =>
  (reference .String r10).must.next fun code r11 =>
  .matched ⟨a ++ ".".toList ++ b, canAdd, code⟩ r11

/-- Struct `AgentNode`: `@Ident` then the body between `'{'` and `'}'`. -/
def parseAgentNode (toks : List Token) : Parsed AgentNode :=
  (reference .Ident toks).next fun name r1 =>
  (literal "\x7b".toList r1).must.next fun _ r2 =>
  (parseAgentBody r2).must.next fun body r3 =>
  (literal "\x7d".toList r3).must.next fun _ r4 =>
  .matched ⟨name, body⟩ r4

/-- First alternative of `Node`: `'compute' @@`, filling `Compute`. -/
def parseComputeAlt (toks : List Token) : Parsed Node :=
  (literal "compute".toList toks).next fun _ r1 =>
  (parseComputeNode r1).must.next fun c r2 =>
  .matched ⟨some c, none⟩ r2

/-- Second alternative of `Node`: `'agent' @@`, filling `Agent`. -/
def parseAgentAlt (toks : List Token) : Parsed Node :=
  (literal "agent".toList toks).next fun _ r1 =>
  (parseAgentNode r1).must.next fun a r2 =>
  .matched ⟨none, some a⟩ r2

/-- Struct `Node`: `'compute' @@ | 'agent' @@`. The alternatives are tried in order.
An error in the first alternative means its head `'compute'` matched, so the
second alternative cannot match the same token (`parseAgentAlt_of_compute_failed`)
and the disjunction reports the first error. -/
def parseNode (toks : List Token) : Parsed Node :=
  match parseComputeAlt toks with
  | .matched v rest => .matched v rest
  | .failed => .failed
  | .noMatch => parseAgentAlt toks

/-- Bound of the grammar library on the repetitions of one group: its package
variable `MaxIterations`, 1000000 unless a program changes it (`main` does not). -/
def MaxIterations : Nat := 1000000

/-- Repetition `@@*` of `Program.Nodes`, with `n` iterations left. The loop
ends at the first point where `Node` does not match; an error inside a node is
an error of the parse (the node's head token is still unconsumed, so the parse
cannot end there). After `MaxIterations` matches the group reports too many
iterations. -/
def parseNodes : Nat → List Token → Parsed (List Node)
  | 0, _ => .failed
  | n + 1, toks =>
    match parseNode toks with
    | .matched v rest =>
      match parseNodes n rest with
      | .matched vs rest2 => .matched (v :: vs) rest2
      | _ => .failed
    | .noMatch => .matched [] toks
    | .failed => .failed

/-- Result of `ParseString` as `main` consumes it, by the error of the returned
pair `(*Program, error)`: no error and the program; the lexer's error (the
program pointer is then nil); or an error of the grammar. With an error of the
grammar the library also returns the program it allocated before parsing, filled
as far as the parse went; the content of that partial program is not modelled. -/
inductive ParseResult where
  | program (p : Program)
  | lexError (e : LexError)
  | parseError
deriving DecidableEq, Repr

/-- Whether the `*Program` of the returned pair is non-nil: it is nil only when
the lexer fails; an error of the grammar comes with the partial program. -/
def ParseResult.programReturned : ParseResult → Bool
  | .program _ => true
  | .lexError _ => false
  | .parseError => true

/-- Whether the `error` of the returned pair is non-nil. -/
def ParseResult.errorReturned : ParseResult → Bool
  | .program _ => false
  | .lexError _ => true
  | .parseError => true

/-- Grammar run over the elided tokens: `Program` is `@@*`, and any token left
after it is an unexpected-token error. -/
def parseProgram (toks : List Token) : ParseResult :=
  match parseNodes MaxIterations toks with
  | .matched nodes [] => .program ⟨nodes⟩
  | _ => .parseError

/-- The call `parser.ParseString("", input)`: tokenize everything, then run the grammar
on the elided stream. -/
def ParseString (input : String) : ParseResult :=
  match Tokenize input.toList with
  | .error e => .lexError e
  | .ok toks => parseProgram (Elide toks)

/-- The text assigned to `input` in `main`. -/
def mainInput : String :=
  "\n    compute double \x7b\n        input: x*\n        output: y\n        code: \"y = x * 2\"\n    \x7d\n\n    agent printer \x7b\n        watches: double.output\n        can_add: compute\n        code: \"if y > 10 \x7b add_node(\x27triple\x27, template: compute) \x7d\"\n    \x7d\n    "

/-- The text of `main` with the compute node's input written as the identifier `x`. -/
def canonicalInput : String :=
  "\n    compute double \x7b\n        input: x\n        output: y\n        code: \"y = x * 2\"\n    \x7d\n\n    agent printer \x7b\n        watches: double.output\n        can_add: compute\n        code: \"if y > 10 \x7b add_node(\x27triple\x27, template: compute) \x7d\"\n    \x7d\n    "

/-- Parse of the canonical source, as the code produces it. -/
def canonicalProgram : Program :=
  ⟨[ ⟨some ⟨"double".toList, ⟨"x".toList, "y".toList, "\"y = x * 2\"".toList⟩⟩, none⟩,
     ⟨none, some ⟨"printer".toList,
       ⟨"double.output".toList, "compute".toList,
        "\"if y > 10 \x7b add_node(\x27triple\x27, template: compute) \x7d\"".toList⟩⟩⟩ ]⟩

/-! ## Specification vocabulary: shapes of tokens -/

/-- Texts a rule can produce. -/
def Shape : TokenType → List Char → Prop
  | .comment, v => ∃ body, v = '/' :: '/' :: (body ++ ['\n']) ∧ ∀ x ∈ body, x ≠ '\n'
  | .whitespace, v => ∃ c cs, v = c :: cs ∧ isSpace c = true ∧ ∀ x ∈ cs, isSpace x = true
  | .String, v => ∃ body, v = '"' :: (body ++ ['"']) ∧ ∀ x ∈ body, x ≠ '"'
  | .Punct, v => ∃ c, v = [c] ∧ isPunct c = true
  | .Ident, v => ∃ c cs, v = c :: cs ∧ isIdentStart c = true ∧ ∀ x ∈ cs, isIdentChar x = true

/-- What the text after a token must look like for the token to end there: a
greedy run ends only where its class ends. -/
def Stops : TokenType → List Char → Prop
  | .whitespace, r => ∀ c, r.head? = some c → isSpace c = false
  | .Ident, r => ∀ c, r.head? = some c → isIdentChar c = false
  | _, _ => True

/-! ## Scanning, positions aside -/

/-- Token lists that scanning `data` yields, whatever positions they carry: each
token has its rule's shape and its greedy run stops at the text that follows. -/
inductive Lexes : List Char → List Token → Prop
  | nil : Lexes [] []
  | cons (t : Token) (r : List Char) (toks : List Token) :
      Shape t.Kind t.Value → Stops t.Kind r → Lexes r toks → Lexes (t.Value ++ r) (t :: toks)

/-- Forget where a token was found. -/
def unstamp (t : Token) : Token := ⟨t.Kind, t.Value, Position.start⟩

/-- Forget the positions of the remaining tokens of an outcome. -/
def Parsed.unstamp {α : Type} : Parsed α → Parsed α
  | .matched v rest => .matched v (rest.map Got.unstamp)
  | .noMatch => .noMatch
  | .failed => .failed

/-! ## Specification vocabulary: the grammar as stated -/

/-- Grammar symbol: a quoted keyword or punctuation, or a token class. -/
inductive Sym where
  | lit (s : List Char)
  | tok (ty : TokenType)

/-- A token stands for a symbol: a literal by its text, a class by its type. -/
def Sym.accepts : Sym → Token → Prop
  | .lit s, t => t.Value = s
  | .tok ty, t => t.Kind = ty

/-- Production
`'compute' Ident '{' 'input' ':' Ident 'output' ':' Ident 'code' ':' String '}'`. -/
def computeRule : List Sym :=
  [ .lit "compute".toList, .tok .Ident, .lit "\x7b".toList,
    .lit "input".toList, .lit ":".toList, .tok .Ident,
    .lit "output".toList, .lit ":".toList, .tok .Ident,
    .lit "code".toList, .lit ":".toList, .tok .String, .lit "\x7d".toList ]

/-- Production `'agent' Ident '{' 'watches' ':' Ident '.' Ident 'can_add' ':' Ident
'code' ':' String '}'`. -/
def agentRule : List Sym :=
  [ .lit "agent".toList, .tok .Ident, .lit "\x7b".toList,
    .lit "watches".toList, .lit ":".toList, .tok .Ident, .lit ".".toList, .tok .Ident,
    .lit "can_add".toList, .lit ":".toList, .tok .Ident,
    .lit "code".toList, .lit ":".toList, .tok .String, .lit "\x7d".toList ]

/-- The tokens spell out a production, symbol by symbol. -/
def Derives (rule : List Sym) (toks : List Token) : Prop :=
  List.Forall₂ Sym.accepts rule toks

/-- Node read off the thirteen tokens of a compute block. -/
def computeOf : List Token → Node
  | [_, n, _, _, _, i, _, _, o, _, _, c, _] =>
    ⟨some ⟨n.Value, ⟨i.Value, o.Value, c.Value⟩⟩, none⟩
  | _ => ⟨none, none⟩

/-- Node read off the fifteen tokens of an agent block. -/
def agentOf : List Token → Node
  | [_, n, _, _, _, a, _, b, _, _, c, _, _, s, _] =>
    ⟨none, some ⟨n.Value, ⟨a.Value ++ ".".toList ++ b.Value, c.Value, s.Value⟩⟩⟩
  | _ => ⟨none, none⟩

/-- The tokens are one `Node` of the grammar, and the node they denote. -/
inductive NodeParse : List Token → Node → Prop
  | compute (nt : List Token) : Derives computeRule nt → NodeParse nt (computeOf nt)
  | agent (nt : List Token) : Derives agentRule nt → NodeParse nt (agentOf nt)

/-- The tokens are `Node*`: a sequence of blocks, and the nodes they denote. -/
inductive ProgramParse : List Token → List Node → Prop
  | nil : ProgramParse [] []
  | cons (nt rest : List Token) (v : Node) (vs : List Node) :
      NodeParse nt v → ProgramParse rest vs → ProgramParse (nt ++ rest) (v :: vs)

/-- First character a token of each type starts with. -/
def startsWith : TokenType → Char → Prop
  | .comment, c => c = '/'
  | .whitespace, c => isSpace c = true
  | .String, c => c = '"'
  | .Punct, c => isPunct c = true
  | .Ident, c => isIdentStart c = true

/-- Text made only of whitespace characters of the class `\s` and of comments
that run from `//` to the end of their line, newline included. -/
inductive Blank : List Char → Prop
  | nil : Blank []
  | space (c : Char) (s : List Char) : isSpace c = true → Blank s → Blank (c :: s)
  | comment (body s : List Char) :
      (∀ x ∈ body, x ≠ '\n') → Blank s → Blank ('/' :: '/' :: (body ++ '\n' :: s))

/-- A character that no rule names: not in `\s`, not in `[a-zA-Z0-9_]`, not in
`[{}:.]`, not a double quote and not a slash (for example `#`). -/
def OutsideRules (c : Char) : Prop :=
  isSpace c = false ∧ isIdentChar c = false ∧ isPunct c = false ∧ c ≠ '"' ∧ c ≠ '/'

/-- A token at no particular place, from its type and text. -/
def mkToken (k : TokenType × List Char) : Token := ⟨k.1, k.2, Position.start⟩

/-- Source text that spells the given token texts one after the other. -/
def render : List (TokenType × List Char) → List Char
  | [] => []
  | k :: ks => k.2 ++ render ks

/-- The single-spaced source text of a compute block,
`compute n { input: i output: o code: "s" }`, token by token. -/
def computeKeys (n i o s : List Char) : List (TokenType × List Char) :=
  [ (.Ident, "compute".toList), (.whitespace, " ".toList), (.Ident, n),
    (.whitespace, " ".toList), (.Punct, "\x7b".toList), (.whitespace, " ".toList),
    (.Ident, "input".toList), (.Punct, ":".toList), (.whitespace, " ".toList), (.Ident, i),
    (.whitespace, " ".toList),
    (.Ident, "output".toList), (.Punct, ":".toList), (.whitespace, " ".toList), (.Ident, o),
    (.whitespace, " ".toList),
    (.Ident, "code".toList), (.Punct, ":".toList), (.whitespace, " ".toList),
    (.String, '"' :: (s ++ ['"'])),
    (.whitespace, " ".toList), (.Punct, "\x7d".toList) ]

/-- Text `compute n { input: i output: o code: "s" }`. -/
def computeText (n i o s : List Char) : List Char := render (computeKeys n i o s)

/-- The single-spaced source text of an agent block,
`agent n { watches: a.b can_add: c code: "s" }`, token by token. -/
def agentKeys (n a b c s : List Char) : List (TokenType × List Char) :=
  [ (.Ident, "agent".toList), (.whitespace, " ".toList), (.Ident, n),
    (.whitespace, " ".toList), (.Punct, "\x7b".toList), (.whitespace, " ".toList),
    (.Ident, "watches".toList), (.Punct, ":".toList), (.whitespace, " ".toList),
    (.Ident, a), (.Punct, ".".toList), (.Ident, b),
    (.whitespace, " ".toList),
    (.Ident, "can_add".toList), (.Punct, ":".toList), (.whitespace, " ".toList), (.Ident, c),
    (.whitespace, " ".toList),
    (.Ident, "code".toList), (.Punct, ":".toList), (.whitespace, " ".toList),
    (.String, '"' :: (s ++ ['"'])),
    (.whitespace, " ".toList), (.Punct, "\x7d".toList) ]

/-- Text `agent n { watches: a.b can_add: c code: "s" }`. -/
def agentText (n a b c s : List Char) : List Char := render (agentKeys n a b c s)

/-- The seven words the grammar quotes as keywords. -/
def keywords : List (List Char) :=
  [ "compute".toList, "agent".toList, "input".toList, "output".toList, "code".toList,
    "watches".toList, "can_add".toList ]

/-- The grammar `Program := Node*`, `Node := compute block | agent block`, as a
derivation of a token sequence, with the number of nodes derived. -/
inductive DerivesProgram : List Token → Nat → Prop
  | nil : DerivesProgram [] 0
  | compute (nt rest : List Token) (n : Nat) :
      Derives computeRule nt → DerivesProgram rest n → DerivesProgram (nt ++ rest) (n + 1)
  | agent (nt rest : List Token) (n : Nat) :
      Derives agentRule nt → DerivesProgram rest n → DerivesProgram (nt ++ rest) (n + 1)

/-- Text of one compute block, `compute a { input: a output: a code: "" }`. -/
def overflowBlock : List Char := computeText "a".toList "a".toList "a".toList []

/-- A source of `MaxIterations` compute blocks written one after the other. -/
def overflowSource : List Char := (List.replicate MaxIterations overflowBlock).flatten

/-- A source of `MaxIterations - 1` compute blocks written one after the other. -/
def almostOverflowSource : List Char := (List.replicate 999999 overflowBlock).flatten

/-- The scan loop of `lexTokens` with the rule table as a parameter, for
tables that list the rules in another order. -/
def lexTokensWith (rules : List Rule) : Nat → Position → List Char → Except LexError (List Token)
  | _, _, [] => .ok []
  | 0, pos, _ :: _ => .error ⟨pos⟩
  | fuel + 1, pos, c :: cs =>
    match matchFirst rules (c :: cs) with
    | none => .error ⟨pos⟩
    | some (ty, span, rest) =>
      match lexTokensWith rules fuel (pos.Advance span) rest with
      | .ok toks => .ok (⟨ty, span, pos⟩ :: toks)
      | .error e => .error e

/-- Tokenize a whole source text with a given rule table. -/
def TokenizeWith (rules : List Rule) (source : List Char) : Except LexError (List Token) :=
  lexTokensWith rules (source.length + 1) Position.start source

/-- The one token type whose rule can start with the character `c`, if any rule can. -/
def startKind (c : Char) : TokenType :=
  if c = '/' then .comment
  else if isSpace c = true then .whitespace
  else if c = '"' then .String
  else if isPunct c = true then .Punct
  else .Ident

/-- What `main` does after `ParseString`: its error branch reports the error
and returns; otherwise it writes the text of the nodes. -/
inductive MainOutput where
  | errorBranch (r : ParseResult)
  | printed (text : List Char)
deriving DecidableEq, Repr

/-- Text `main` writes for one node: the block for `Compute` when it is set,
then the block for `Agent` when it is set. -/
def printNode (n : Node) : List Char :=
  (match n.Compute with
    | some c =>
      "\nCompute Node: ".toList ++ c.Name ++ "\n".toList ++
      "  Input: ".toList ++ c.Body.Input ++ "\n".toList ++
      "  Output: ".toList ++ c.Body.Output ++ "\n".toList ++
      "  Code: ".toList ++ c.Body.Code ++ "\n".toList
    | none => []) ++
  (match n.Agent with
    | some a =>
      "\nAgent Node: ".toList ++ a.Name ++ "\n".toList ++
      "  Watches: ".toList ++ a.Body.Watches ++ "\n".toList ++
      "  Can Add: ".toList ++ a.Body.CanAdd ++ "\n".toList ++
      "  Code: ".toList ++ a.Body.Code ++ "\n".toList
    | none => [])

/-- The body of `main` from the call of `ParseString` on, for a given input text. -/
def mainOn (input : String) : MainOutput :=
  match ParseString input with
  | .program p =>
    .printed ("Successfully parsed program!\n".toList ++ (p.Nodes.map printNode).flatten)
  | r => .errorBranch r

/-- The program `main` on its embedded input. -/
def main : MainOutput := mainOn mainInput

/-- The source text from `pos` on, laid out around the tokens the lexer returned:
before each token a run of blank text (whitespace and comments, consumed without
a token), then the token's text, at the token's position; after the last token
only blank text. -/
inductive Spans : Position → List Char → List Token → Prop
  | done (pos : Position) (gap : List Char) : Blank gap → Spans pos gap []
  | token (pos : Position) (gap : List Char) (t : Token) (rest : List Char)
      (toks : List Token) :
      Blank gap → t.Pos = pos.Advance gap →
      Spans (pos.Advance (gap ++ t.Value)) rest toks →
      Spans pos (gap ++ (t.Value ++ rest)) (t :: toks)

/-- The thirteen tokens of a compute block with name `n`, input `i`, output `o`
and code literal `code` (the literal's whole text), at no particular place. -/
def computeBlock (n i o code : List Char) : List Token :=
  [ (.Ident, "compute".toList), (.Ident, n), (.Punct, "\x7b".toList),
    (.Ident, "input".toList), (.Punct, ":".toList), (.Ident, i),
    (.Ident, "output".toList), (.Punct, ":".toList), (.Ident, o),
    (.Ident, "code".toList), (.Punct, ":".toList), (.String, code),
    (.Punct, "\x7d".toList) ].map mkToken

/-- The code field of node `n` is the string literal as written in `source`: the
block `blk` of returned tokens that makes up the node ends with the tokens
`code`, `:`, a String token `t` and the closing brace; at the position of `t`
the source reads an opening double quote, a `body` without any double quote and
the closing double quote; the text of `t` is that whole literal; and the node,
which is a compute or an agent node, has that text as its code field. -/
def CodeAsWritten (source : List Char) (blk : List Token) (n : Node) : Prop :=
  ∃ (front : List Token) (tcode tcolon t closing : Token) (before body after : List Char),
    blk = front ++ [tcode, tcolon, t, closing] ∧
    tcode.Value = "code".toList ∧ tcolon.Value = ":".toList ∧
    t.Kind = .String ∧ closing.Value = "\x7d".toList ∧
    source = before ++ ('"' :: (body ++ '"' :: after)) ∧
    (∀ x ∈ body, x ≠ '"') ∧
    t.Pos = Position.start.Advance before ∧
    t.Value = '"' :: (body ++ ['"']) ∧
    (n.Compute.isSome = true ∨ n.Agent.isSome = true) ∧
    (∀ c, n.Compute = some c → c.Body.Code = '"' :: (body ++ ['"'])) ∧
    (∀ a, n.Agent = some a → a.Body.Code = '"' :: (body ++ ['"']))

/-! # Theorems -/

/-! ## Matchers -/

theorem takeWhile_dropWhile_spec (p : Char → Bool) (l : List Char) :
    l.takeWhile p ++ l.dropWhile p = l ∧ (∀ x ∈ l.takeWhile p, p x = true) ∧
      (∀ c, (l.dropWhile p).head? = some c → p c = false) := by
  induction l with
  | nil => simp
  | cons a l ih =>
    by_cases h : p a = true
    · simp only [List.takeWhile_cons, List.dropWhile_cons, h, if_true, List.cons_append,
        List.mem_cons, forall_eq_or_imp, true_and]
      exact ⟨by rw [ih.1], ih.2.1, ih.2.2⟩
    · simp only [Bool.not_eq_true] at h
      simp [List.takeWhile_cons, List.dropWhile_cons, h]

theorem takeWhile_append_stop (p : Char → Bool) (cs r : List Char)
    (hcs : ∀ x ∈ cs, p x = true) (hr : ∀ c, r.head? = some c → p c = false) :
    (cs ++ r).takeWhile p = cs ∧ (cs ++ r).dropWhile p = r := by
  induction cs with
  | nil =>
    cases r with
    | nil => simp
    | cons a r =>
      have := hr a rfl
      simp [List.takeWhile_cons, List.dropWhile_cons, this]
  | cons a cs ih =>
    have ha := hcs a (List.mem_cons_self _ _)
    have := ih (fun x hx => hcs x (List.mem_cons_of_mem _ hx))
    simp [List.takeWhile_cons, List.dropWhile_cons, ha, this.1, this.2]

theorem matchComment_iff (data v r : List Char) :
    matchComment data = some (v, r) ↔ data = v ++ r ∧ Shape .comment v := by
  constructor
  · intro h
    unfold matchComment at h
    split at h
    · rename_i c1 c2 rest
      have sp := takeWhile_dropWhile_spec (fun c => c != '\n') rest
      split at h
      · rename_i hc
        obtain ⟨rfl, rfl⟩ := hc
        split at h
        · rename_i c3 after hd
          split at h
          · rename_i h3
            subst h3
            simp only [Option.some.injEq, Prod.mk.injEq] at h
            obtain ⟨rfl, rfl⟩ := h
            refine ⟨?_, _, rfl, ?_⟩
            · have := sp.1
              rw [hd] at this
              simp [this]
            · intro x hx
              simpa using sp.2.1 x hx
          · simp at h
        · simp at h
      · simp at h
    · simp at h
  · rintro ⟨rfl, body, rfl, hb⟩
    have := takeWhile_append_stop (fun c => c != '\n') body ('\n' :: r)
      (fun x hx => by simpa using hb x hx) (by simp)
    simp [matchComment, this.1, this.2]

theorem matchString_iff (data v r : List Char) :
    matchString data = some (v, r) ↔ data = v ++ r ∧ Shape .String v := by
  constructor
  · intro h
    unfold matchString at h
    split at h
    · rename_i c1 rest
      have sp := takeWhile_dropWhile_spec (fun c => c != '"') rest
      split at h
      · rename_i hc
        subst hc
        split at h
        · rename_i c3 after hd
          split at h
          · rename_i h3
            subst h3
            simp only [Option.some.injEq, Prod.mk.injEq] at h
            obtain ⟨rfl, rfl⟩ := h
            refine ⟨?_, _, rfl, ?_⟩
            · have := sp.1
              rw [hd] at this
              simp [this]
            · intro x hx
              simpa using sp.2.1 x hx
          · simp at h
        · simp at h
      · simp at h
    · simp at h
  · rintro ⟨rfl, body, rfl, hb⟩
    have := takeWhile_append_stop (fun c => c != '"') body ('"' :: r)
      (fun x hx => by simpa using hb x hx) (by simp)
    simp [matchString, this.1, this.2]

theorem matchWhitespace_iff (data v r : List Char) :
    matchWhitespace data = some (v, r) ↔
      data = v ++ r ∧ Shape .whitespace v ∧ Stops .whitespace r := by
  constructor
  · intro h
    match data, h with
    | c :: rest, h =>
      have sp := takeWhile_dropWhile_spec isSpace rest
      simp only [matchWhitespace] at h
      split at h
      · rename_i hc
        simp only [Option.some.injEq, Prod.mk.injEq] at h
        obtain ⟨rfl, rfl⟩ := h
        exact ⟨by simp [sp.1], ⟨c, _, rfl, hc, sp.2.1⟩, sp.2.2⟩
      · simp at h
  · rintro ⟨rfl, ⟨c, cs, rfl, hc, hcs⟩, hr⟩
    have := takeWhile_append_stop isSpace cs r hcs hr
    simp [matchWhitespace, hc, this.1, this.2]

theorem matchIdent_iff (data v r : List Char) :
    matchIdent data = some (v, r) ↔ data = v ++ r ∧ Shape .Ident v ∧ Stops .Ident r := by
  constructor
  · intro h
    match data, h with
    | c :: rest, h =>
      have sp := takeWhile_dropWhile_spec isIdentChar rest
      simp only [matchIdent] at h
      split at h
      · rename_i hc
        simp only [Option.some.injEq, Prod.mk.injEq] at h
        obtain ⟨rfl, rfl⟩ := h
        exact ⟨by simp [sp.1], ⟨c, _, rfl, hc, sp.2.1⟩, sp.2.2⟩
      · simp at h
  · rintro ⟨rfl, ⟨c, cs, rfl, hc, hcs⟩, hr⟩
    have := takeWhile_append_stop isIdentChar cs r hcs hr
    simp [matchIdent, hc, this.1, this.2]

theorem matchPunct_iff (data v r : List Char) :
    matchPunct data = some (v, r) ↔ data = v ++ r ∧ Shape .Punct v := by
  constructor
  · intro h
    match data, h with
    | c :: rest, h =>
      simp only [matchPunct] at h
      split at h
      · rename_i hc
        simp only [Option.some.injEq, Prod.mk.injEq] at h
        obtain ⟨rfl, rfl⟩ := h
        exact ⟨rfl, c, rfl, hc⟩
      · simp at h
  · rintro ⟨rfl, c, rfl, hc⟩
    simp [matchPunct, hc]

/-! ## Character classes are disjoint -/

theorem isSpace_iff (c : Char) :
    isSpace c = true ↔ c = '\t' ∨ c = '\n' ∨ c = '\x0c' ∨ c = '\r' ∨ c = ' ' := by
  simp [isSpace, or_assoc]

theorem isPunct_iff (c : Char) :
    isPunct c = true ↔ c = '\x7b' ∨ c = '\x7d' ∨ c = ':' ∨ c = '.' := by
  simp [isPunct, or_assoc]

theorem isIdentChar_of_start {c : Char} (h : isIdentStart c = true) : isIdentChar c = true := by
  simp only [isIdentStart, Bool.or_eq_true] at h
  simp only [isIdentChar, Bool.or_eq_true]
  rcases h with h | h
  · exact Or.inl (Or.inl h)
  · exact Or.inr h

theorem space_not_identChar {c : Char} (h : isSpace c = true) : isIdentChar c = false := by
  rcases (isSpace_iff c).1 h with rfl | rfl | rfl | rfl | rfl <;> decide

theorem space_not_punct {c : Char} (h : isSpace c = true) : isPunct c = false := by
  rcases (isSpace_iff c).1 h with rfl | rfl | rfl | rfl | rfl <;> decide

theorem space_ne_slash {c : Char} (h : isSpace c = true) : c ≠ '/' := by
  rcases (isSpace_iff c).1 h with rfl | rfl | rfl | rfl | rfl <;> decide

theorem space_ne_quote {c : Char} (h : isSpace c = true) : c ≠ '"' := by
  rcases (isSpace_iff c).1 h with rfl | rfl | rfl | rfl | rfl <;> decide

theorem punct_not_identChar {c : Char} (h : isPunct c = true) : isIdentChar c = false := by
  rcases (isPunct_iff c).1 h with rfl | rfl | rfl | rfl <;> decide

theorem punct_not_space {c : Char} (h : isPunct c = true) : isSpace c = false := by
  rcases (isPunct_iff c).1 h with rfl | rfl | rfl | rfl <;> decide

theorem punct_ne_slash {c : Char} (h : isPunct c = true) : c ≠ '/' := by
  rcases (isPunct_iff c).1 h with rfl | rfl | rfl | rfl <;> decide

theorem punct_ne_quote {c : Char} (h : isPunct c = true) : c ≠ '"' := by
  rcases (isPunct_iff c).1 h with rfl | rfl | rfl | rfl <;> decide

theorem identChar_not_space {c : Char} (h : isIdentChar c = true) : isSpace c = false := by
  cases hs : isSpace c with
  | false => rfl
  | true => rw [space_not_identChar hs] at h; cases h

theorem identChar_not_punct {c : Char} (h : isIdentChar c = true) : isPunct c = false := by
  cases hs : isPunct c with
  | false => rfl
  | true => rw [punct_not_identChar hs] at h; cases h

theorem identChar_ne_slash {c : Char} (h : isIdentChar c = true) : c ≠ '/' := by
  rintro rfl
  revert h
  decide

theorem identChar_ne_quote {c : Char} (h : isIdentChar c = true) : c ≠ '"' := by
  rintro rfl
  revert h
  decide

/-! ## The rule table, characterized -/

theorem matchComment_none {c : Char} (l : List Char) (h : c ≠ '/') :
    matchComment (c :: l) = none := by
  cases l <;> simp [matchComment, h]

theorem matchWhitespace_none {c : Char} (l : List Char) (h : isSpace c = false) :
    matchWhitespace (c :: l) = none := by
  simp [matchWhitespace, h]

theorem matchString_none {c : Char} (l : List Char) (h : c ≠ '"') :
    matchString (c :: l) = none := by
  simp [matchString, h]

theorem matchPunct_none {c : Char} (l : List Char) (h : isPunct c = false) :
    matchPunct (c :: l) = none := by
  simp [matchPunct, h]

theorem matchIdent_none {c : Char} (l : List Char) (h : isIdentStart c = false) :
    matchIdent (c :: l) = none := by
  simp [matchIdent, h]

theorem matchFirst_Root (data : List Char) :
    matchFirst Root data =
      match matchComment data with
      | some (v, r) => some (.comment, v, r)
      | none =>
        match matchWhitespace data with
        | some (v, r) => some (.whitespace, v, r)
        | none =>
          match matchString data with
          | some (v, r) => some (.String, v, r)
          | none =>
            match matchPunct data with
            | some (v, r) => some (.Punct, v, r)
            | none =>
              match matchIdent data with
              | some (v, r) => some (.Ident, v, r)
              | none => none := by
  simp only [Root, matchFirst]

/-- A rule of the table matches at `data` with span `v` and rest `r` exactly when
`v` has the rule's shape, `data = v ++ r`, and the rule's greedy run stops at `r`. -/
theorem matchFirst_iff (data : List Char) (ty : TokenType) (v r : List Char) :
    matchFirst Root data = some (ty, v, r) ↔ data = v ++ r ∧ Shape ty v ∧ Stops ty r := by
  rw [matchFirst_Root]
  constructor
  · intro h
    split at h
    · rename_i v1 r1 h1
      simp only [Option.some.injEq, Prod.mk.injEq] at h
      obtain ⟨rfl, rfl, rfl⟩ := h
      have := (matchComment_iff _ _ _).1 h1
      exact ⟨this.1, this.2, trivial⟩
    · split at h
      · rename_i v1 r1 h1
        simp only [Option.some.injEq, Prod.mk.injEq] at h
        obtain ⟨rfl, rfl, rfl⟩ := h
        exact (matchWhitespace_iff _ _ _).1 h1
      · split at h
        · rename_i v1 r1 h1
          simp only [Option.some.injEq, Prod.mk.injEq] at h
          obtain ⟨rfl, rfl, rfl⟩ := h
          have := (matchString_iff _ _ _).1 h1
          exact ⟨this.1, this.2, trivial⟩
        · split at h
          · rename_i v1 r1 h1
            simp only [Option.some.injEq, Prod.mk.injEq] at h
            obtain ⟨rfl, rfl, rfl⟩ := h
            have := (matchPunct_iff _ _ _).1 h1
            exact ⟨this.1, this.2, trivial⟩
          · split at h
            · rename_i v1 r1 h1
              simp only [Option.some.injEq, Prod.mk.injEq] at h
              obtain ⟨rfl, rfl, rfl⟩ := h
              exact (matchIdent_iff _ _ _).1 h1
            · cases h
  · rintro ⟨rfl, hs, hr⟩
    cases ty with
    | comment =>
      rw [(matchComment_iff (v ++ r) v r).2 ⟨rfl, hs⟩]
    | whitespace =>
      have hm := (matchWhitespace_iff _ _ _).2 ⟨rfl, hs, hr⟩
      obtain ⟨c, cs, rfl, hc, -⟩ := hs
      rw [List.cons_append] at hm ⊢
      rw [matchComment_none _ (space_ne_slash hc), hm]
    | String =>
      have hm := (matchString_iff (v ++ r) v r).2 ⟨rfl, hs⟩
      obtain ⟨body, rfl, -⟩ := hs
      rw [List.cons_append] at hm ⊢
      rw [matchComment_none _ (by decide), matchWhitespace_none _ (by decide), hm]
    | Punct =>
      have hm := (matchPunct_iff (v ++ r) v r).2 ⟨rfl, hs⟩
      obtain ⟨c, rfl, hc⟩ := hs
      rw [List.cons_append] at hm ⊢
      rw [matchComment_none _ (punct_ne_slash hc), matchWhitespace_none _ (punct_not_space hc),
        matchString_none _ (punct_ne_quote hc), hm]
    | Ident =>
      have hm := (matchIdent_iff _ _ _).2 ⟨rfl, hs, hr⟩
      obtain ⟨c, cs, rfl, hc, -⟩ := hs
      have hc2 := isIdentChar_of_start hc
      rw [List.cons_append] at hm ⊢
      rw [matchComment_none _ (identChar_ne_slash hc2),
        matchWhitespace_none _ (identChar_not_space hc2),
        matchString_none _ (identChar_ne_quote hc2),
        matchPunct_none _ (identChar_not_punct hc2), hm]

theorem Shape.ne_nil {ty : TokenType} {v : List Char} (h : Shape ty v) : v ≠ [] := by
  cases ty <;> simp only [Shape] at h
  · obtain ⟨_, rfl, _⟩ := h; simp
  · obtain ⟨_, _, rfl, _⟩ := h; simp
  · obtain ⟨_, rfl, _⟩ := h; simp
  · obtain ⟨_, rfl, _⟩ := h; simp
  · obtain ⟨_, _, rfl, _⟩ := h; simp

/-! ## Scanning, positions aside -/

theorem lexTokens_succ (fuel : Nat) (pos : Position) (data : List Char) (h : data ≠ []) :
    lexTokens (fuel + 1) pos data =
      match matchFirst Root data with
      | none => .error ⟨pos⟩
      | some (ty, span, rest) =>
        match lexTokens fuel (pos.Advance span) rest with
        | .ok toks => .ok (⟨ty, span, pos⟩ :: toks)
        | .error e => .error e := by
  cases data with
  | nil => exact absurd rfl h
  | cons c cs => rw [lexTokens]

theorem lexes_of_lexTokens (fuel : Nat) :
    ∀ (pos : Position) (data : List Char) (toks : List Token),
      lexTokens fuel pos data = .ok toks → Lexes data toks := by
  induction fuel with
  | zero =>
    intro pos data toks h
    cases data with
    | nil => simp only [lexTokens, Except.ok.injEq] at h; subst h; exact Lexes.nil
    | cons c cs => simp [lexTokens] at h
  | succ fuel ih =>
    intro pos data toks h
    cases data with
    | nil => simp only [lexTokens, Except.ok.injEq] at h; subst h; exact Lexes.nil
    | cons c cs =>
      rw [lexTokens_succ _ _ _ (by simp)] at h
      split at h
      · cases h
      · rename_i ty span rest hm
        split at h
        · rename_i toks1 h1
          simp only [Except.ok.injEq] at h
          subst h
          obtain ⟨hd, hs, hr⟩ := (matchFirst_iff _ _ _ _).1 hm
          rw [hd]
          exact Lexes.cons ⟨ty, span, pos⟩ rest toks1 hs hr (ih _ _ _ h1)
        · cases h

theorem lexTokens_of_lexes {data : List Char} {toks : List Token} (h : Lexes data toks) :
    ∀ (fuel : Nat) (pos : Position), data.length < fuel →
      ∃ toks1, lexTokens fuel pos data = .ok toks1 ∧ toks1.map unstamp = toks.map unstamp := by
  induction h with
  | nil =>
    intro fuel pos _
    exact ⟨[], by cases fuel <;> simp [lexTokens], rfl⟩
  | cons t r toks hs hr _ ih =>
    intro fuel pos hf
    cases fuel with
    | zero => omega
    | succ fuel =>
      have hne : t.Value ≠ [] := hs.ne_nil
      have hlen : 0 < t.Value.length := List.length_pos.2 hne
      rw [List.length_append] at hf
      obtain ⟨toks1, h1, h2⟩ := ih fuel (pos.Advance t.Value) (by omega)
      refine ⟨⟨t.Kind, t.Value, pos⟩ :: toks1, ?_, ?_⟩
      · rw [lexTokens_succ _ _ _ (by simp [hne]),
          (matchFirst_iff _ _ _ _).2 ⟨rfl, hs, hr⟩]
        simp only [h1]
      · simp only [List.map_cons, h2]
        rfl

/-! ## The grammar does not look at positions -/

theorem literal_unstamp (s : List Char) (toks : List Token) :
    literal s (toks.map unstamp) = (literal s toks).unstamp := by
  cases toks with
  | nil => rfl
  | cons t rest =>
    simp only [List.map_cons, literal, unstamp]
    split <;> rfl

theorem reference_unstamp (ty : TokenType) (toks : List Token) :
    reference ty (toks.map unstamp) = (reference ty toks).unstamp := by
  cases toks with
  | nil => rfl
  | cons t rest =>
    simp only [List.map_cons, reference, unstamp]
    split <;> rfl

theorem Parsed.must_unstamp {α : Type} (p : Parsed α) : p.unstamp.must = p.must.unstamp := by
  cases p <;> rfl

theorem Parsed.next_unstamp {α β : Type} (p : Parsed α) (k : α → List Token → Parsed β)
    (hk : ∀ a r, k a (r.map Got.unstamp) = (k a r).unstamp) :
    p.unstamp.next k = (p.next k).unstamp := by
  cases p with
  | matched v rest => exact hk v rest
  | noMatch => rfl
  | failed => rfl

theorem parseComputeBody_unstamp (toks : List Token) :
    parseComputeBody (toks.map unstamp) = (parseComputeBody toks).unstamp := by
  unfold parseComputeBody
  rw [literal_unstamp]
  repeat (first
    | rfl
    | (refine Parsed.next_unstamp _ _ ?_; intro _ r;
       try simp only [literal_unstamp, reference_unstamp, Parsed.must_unstamp]))

theorem parseAgentBody_unstamp (toks : List Token) :
    parseAgentBody (toks.map unstamp) = (parseAgentBody toks).unstamp := by
  unfold parseAgentBody
  rw [literal_unstamp]
  repeat (first
    | rfl
    | (refine Parsed.next_unstamp _ _ ?_; intro _ r;
       try simp only [literal_unstamp, reference_unstamp, Parsed.must_unstamp]))

theorem parseComputeNode_unstamp (toks : List Token) :
    parseComputeNode (toks.map unstamp) = (parseComputeNode toks).unstamp := by
  unfold parseComputeNode
  rw [reference_unstamp]
  repeat (first
    | rfl
    | (refine Parsed.next_unstamp _ _ ?_; intro _ r;
       try simp only [literal_unstamp, reference_unstamp, parseComputeBody_unstamp,
         Parsed.must_unstamp]))

theorem parseAgentNode_unstamp (toks : List Token) :
    parseAgentNode (toks.map unstamp) = (parseAgentNode toks).unstamp := by
  unfold parseAgentNode
  rw [reference_unstamp]
  repeat (first
    | rfl
    | (refine Parsed.next_unstamp _ _ ?_; intro _ r;
       try simp only [literal_unstamp, reference_unstamp, parseAgentBody_unstamp,
         Parsed.must_unstamp]))

theorem parseNode_unstamp (toks : List Token) :
    parseNode (toks.map unstamp) = (parseNode toks).unstamp := by
  have h1 : parseComputeAlt (toks.map unstamp) = (parseComputeAlt toks).unstamp := by
    unfold parseComputeAlt
    rw [literal_unstamp]
    repeat (first
      | rfl
      | (refine Parsed.next_unstamp _ _ ?_; intro _ r;
         try simp only [parseComputeNode_unstamp, Parsed.must_unstamp]))
  have h2 : parseAgentAlt (toks.map unstamp) = (parseAgentAlt toks).unstamp := by
    unfold parseAgentAlt
    rw [literal_unstamp]
    repeat (first
      | rfl
      | (refine Parsed.next_unstamp _ _ ?_; intro _ r;
         try simp only [parseAgentNode_unstamp, Parsed.must_unstamp]))
  unfold parseNode
  rw [h1, h2]
  cases parseComputeAlt toks <;> rfl

theorem parseNodes_unstamp (n : Nat) :
    ∀ toks : List Token, parseNodes n (toks.map unstamp) = (parseNodes n toks).unstamp := by
  induction n with
  | zero => intro toks; rfl
  | succ n ih =>
    intro toks
    simp only [parseNodes, parseNode_unstamp]
    cases parseNode toks with
    | matched v rest =>
      simp only [Parsed.unstamp, ih]
      cases parseNodes n rest <;> rfl
    | noMatch => rfl
    | failed => rfl

theorem parseProgram_unstamp (toks : List Token) :
    parseProgram (toks.map unstamp) = parseProgram toks := by
  simp only [parseProgram, parseNodes_unstamp]
  cases parseNodes MaxIterations toks with
  | matched v rest => cases rest <;> rfl
  | noMatch => rfl
  | failed => rfl

theorem Elide_unstamp (toks : List Token) :
    Elide (toks.map unstamp) = (Elide toks).map unstamp := by
  induction toks with
  | nil => rfl
  | cons t toks ih =>
    simp only [Elide, List.map_cons, List.filter_cons] at ih ⊢
    have : (unstamp t).Kind = t.Kind := rfl
    rw [this]
    split
    · rw [List.map_cons, ih]
    · exact ih

/-- The parse of a source is the grammar run on any scan of it. -/
theorem ParseString_of_lexes (input : String) (toks : List Token)
    (h : Lexes input.toList toks) : ParseString input = parseProgram (Elide toks) := by
  obtain ⟨toks1, h1, h2⟩ := lexTokens_of_lexes h (input.toList.length + 1) Position.start
    (Nat.lt_succ_self _)
  unfold ParseString Tokenize
  rw [h1]
  show parseProgram (Elide toks1) = _
  rw [← parseProgram_unstamp (Elide toks1), ← Elide_unstamp, h2, Elide_unstamp,
    parseProgram_unstamp]

theorem lexes_of_Tokenize {source : List Char} {toks : List Token}
    (h : Tokenize source = .ok toks) : Lexes source toks :=
  lexes_of_lexTokens _ _ _ _ h

/-! ## The grammar functions against the grammar as stated -/

theorem literal_eq_matched (s : List Char) (toks rest : List Token) (u : Unit) :
    literal s toks = .matched u rest ↔ ∃ t, toks = t :: rest ∧ t.Value = s := by
  cases toks with
  | nil => simp [literal]
  | cons t r =>
    simp only [literal]
    split
    · rename_i h
      simp only [Parsed.matched.injEq, true_and, List.cons.injEq]
      constructor
      · rintro rfl; exact ⟨t, ⟨rfl, rfl⟩, h⟩
      · rintro ⟨t1, ⟨rfl, rfl⟩, -⟩; rfl
    · rename_i h
      simp only [false_iff, not_exists, not_and, List.cons.injEq, reduceCtorEq]
      rintro t1 ⟨rfl, rfl⟩
      exact h

theorem reference_eq_matched (ty : TokenType) (toks rest : List Token) (v : List Char) :
    reference ty toks = .matched v rest ↔ ∃ t, toks = t :: rest ∧ t.Kind = ty ∧ t.Value = v := by
  cases toks with
  | nil => simp [reference]
  | cons t r =>
    simp only [reference]
    split
    · rename_i h
      simp only [Parsed.matched.injEq, List.cons.injEq]
      constructor
      · rintro ⟨rfl, rfl⟩; exact ⟨t, ⟨rfl, rfl⟩, h, rfl⟩
      · rintro ⟨t1, ⟨rfl, rfl⟩, -, rfl⟩; exact ⟨rfl, rfl⟩
    · rename_i h
      simp only [false_iff, not_exists, not_and, List.cons.injEq, reduceCtorEq]
      rintro t1 ⟨rfl, rfl⟩ h1
      exact absurd h1 h

theorem Parsed.must_eq_matched {α : Type} (p : Parsed α) (v : α) (rest : List Token) :
    p.must = .matched v rest ↔ p = .matched v rest := by
  cases p <;> simp [Parsed.must]

theorem Parsed.next_eq_matched {α β : Type} (p : Parsed α) (k : α → List Token → Parsed β)
    (v : β) (rest : List Token) :
    p.next k = .matched v rest ↔ ∃ a r, p = .matched a r ∧ k a r = .matched v rest := by
  cases p with
  | matched a r =>
    simp only [Parsed.next, Parsed.matched.injEq]
    constructor
    · intro h; exact ⟨a, r, ⟨rfl, rfl⟩, h⟩
    · rintro ⟨a1, r1, ⟨rfl, rfl⟩, h⟩; exact h
  | noMatch => simp [Parsed.next]
  | failed => simp [Parsed.next]

theorem derives_computeRule (nt : List Token) :
    Derives computeRule nt ↔
      ∃ t1 t2 t3 t4 t5 t6 t7 t8 t9 t10 t11 t12 t13,
        nt = [t1, t2, t3, t4, t5, t6, t7, t8, t9, t10, t11, t12, t13] ∧
        t1.Value = "compute".toList ∧
        t2.Kind = .Ident ∧
        t3.Value = "\x7b".toList ∧
        t4.Value = "input".toList ∧
        t5.Value = ":".toList ∧
        t6.Kind = .Ident ∧
        t7.Value = "output".toList ∧
        t8.Value = ":".toList ∧
        t9.Kind = .Ident ∧
        t10.Value = "code".toList ∧
        t11.Value = ":".toList ∧
        t12.Kind = .String ∧
        t13.Value = "\x7d".toList := by
  simp only [Derives, computeRule, List.forall₂_cons_left_iff, List.forall₂_nil_left_iff, Sym.accepts]
  constructor
  · rintro ⟨t1, _, h1, ⟨t2, _, h2, ⟨t3, _, h3, ⟨t4, _, h4, ⟨t5, _, h5, ⟨t6, _, h6, ⟨t7, _, h7, ⟨t8, _, h8, ⟨t9, _, h9, ⟨t10, _, h10, ⟨t11, _, h11, ⟨t12, _, h12, ⟨t13, _, h13, rfl, rfl⟩, rfl⟩, rfl⟩, rfl⟩, rfl⟩, rfl⟩, rfl⟩, rfl⟩, rfl⟩, rfl⟩, rfl⟩, rfl⟩, rfl⟩
    exact ⟨t1, t2, t3, t4, t5, t6, t7, t8, t9, t10, t11, t12, t13, rfl, h1, h2, h3, h4, h5, h6, h7, h8, h9, h10, h11, h12, h13⟩
  · rintro ⟨t1, t2, t3, t4, t5, t6, t7, t8, t9, t10, t11, t12, t13, rfl, h1, h2, h3, h4, h5, h6, h7, h8, h9, h10, h11, h12, h13⟩
    exact ⟨t1, _, h1, ⟨t2, _, h2, ⟨t3, _, h3, ⟨t4, _, h4, ⟨t5, _, h5, ⟨t6, _, h6, ⟨t7, _, h7, ⟨t8, _, h8, ⟨t9, _, h9, ⟨t10, _, h10, ⟨t11, _, h11, ⟨t12, _, h12, ⟨t13, _, h13, rfl, rfl⟩, rfl⟩, rfl⟩, rfl⟩, rfl⟩, rfl⟩, rfl⟩, rfl⟩, rfl⟩, rfl⟩, rfl⟩, rfl⟩, rfl⟩

theorem derives_agentRule (nt : List Token) :
    Derives agentRule nt ↔
      ∃ t1 t2 t3 t4 t5 t6 t7 t8 t9 t10 t11 t12 t13 t14 t15,
        nt = [t1, t2, t3, t4, t5, t6, t7, t8, t9, t10, t11, t12, t13, t14, t15] ∧
        t1.Value = "agent".toList ∧
        t2.Kind = .Ident ∧
        t3.Value = "\x7b".toList ∧
        t4.Value = "watches".toList ∧
        t5.Value = ":".toList ∧
        t6.Kind = .Ident ∧
        t7.Value = ".".toList ∧
        t8.Kind = .Ident ∧
        t9.Value = "can_add".toList ∧
        t10.Value = ":".toList ∧
        t11.Kind = .Ident ∧
        t12.Value = "code".toList ∧
        t13.Value = ":".toList ∧
        t14.Kind = .String ∧
        t15.Value = "\x7d".toList := by
  simp only [Derives, agentRule, List.forall₂_cons_left_iff, List.forall₂_nil_left_iff, Sym.accepts]
  constructor
  · rintro ⟨t1, _, h1, ⟨t2, _, h2, ⟨t3, _, h3, ⟨t4, _, h4, ⟨t5, _, h5, ⟨t6, _, h6, ⟨t7, _, h7, ⟨t8, _, h8, ⟨t9, _, h9, ⟨t10, _, h10, ⟨t11, _, h11, ⟨t12, _, h12, ⟨t13, _, h13, ⟨t14, _, h14, ⟨t15, _, h15, rfl, rfl⟩, rfl⟩, rfl⟩, rfl⟩, rfl⟩, rfl⟩, rfl⟩, rfl⟩, rfl⟩, rfl⟩, rfl⟩, rfl⟩, rfl⟩, rfl⟩, rfl⟩
    exact ⟨t1, t2, t3, t4, t5, t6, t7, t8, t9, t10, t11, t12, t13, t14, t15, rfl, h1, h2, h3, h4, h5, h6, h7, h8, h9, h10, h11, h12, h13, h14, h15⟩
  · rintro ⟨t1, t2, t3, t4, t5, t6, t7, t8, t9, t10, t11, t12, t13, t14, t15, rfl, h1, h2, h3, h4, h5, h6, h7, h8, h9, h10, h11, h12, h13, h14, h15⟩
    exact ⟨t1, _, h1, ⟨t2, _, h2, ⟨t3, _, h3, ⟨t4, _, h4, ⟨t5, _, h5, ⟨t6, _, h6, ⟨t7, _, h7, ⟨t8, _, h8, ⟨t9, _, h9, ⟨t10, _, h10, ⟨t11, _, h11, ⟨t12, _, h12, ⟨t13, _, h13, ⟨t14, _, h14, ⟨t15, _, h15, rfl, rfl⟩, rfl⟩, rfl⟩, rfl⟩, rfl⟩, rfl⟩, rfl⟩, rfl⟩, rfl⟩, rfl⟩, rfl⟩, rfl⟩, rfl⟩, rfl⟩, rfl⟩

theorem parseComputeAlt_eq_matched (toks rest : List Token) (v : Node) :
    parseComputeAlt toks = .matched v rest ↔
      ∃ nt, toks = nt ++ rest ∧ Derives computeRule nt ∧ v = computeOf nt := by
  simp only [derives_computeRule]
  simp only [parseComputeAlt, parseComputeNode, parseComputeBody, Parsed.next_eq_matched,
    Parsed.must_eq_matched, literal_eq_matched, reference_eq_matched, Parsed.matched.injEq]
  constructor
  · rintro ⟨_, _, ⟨t1, rfl, h1⟩, _, _, ⟨_, _, ⟨t2, rfl, h2, rfl⟩, _, _, ⟨t3, rfl, h3⟩,
      _, _, ⟨_, _, ⟨t4, rfl, h4⟩, _, _, ⟨t5, rfl, h5⟩, _, _, ⟨t6, rfl, h6, rfl⟩,
        _, _, ⟨t7, rfl, h7⟩, _, _, ⟨t8, rfl, h8⟩, _, _, ⟨t9, rfl, h9, rfl⟩,
        _, _, ⟨t10, rfl, h10⟩, _, _, ⟨t11, rfl, h11⟩, _, _, ⟨t12, rfl, h12, rfl⟩, rfl, rfl⟩,
      _, _, ⟨t13, rfl, h13⟩, rfl, rfl⟩, rfl, rfl⟩
    exact ⟨[t1, t2, t3, t4, t5, t6, t7, t8, t9, t10, t11, t12, t13], rfl,
      ⟨t1, t2, t3, t4, t5, t6, t7, t8, t9, t10, t11, t12, t13, rfl,
        h1, h2, h3, h4, h5, h6, h7, h8, h9, h10, h11, h12, h13⟩, rfl⟩
  · rintro ⟨_, rfl, ⟨t1, t2, t3, t4, t5, t6, t7, t8, t9, t10, t11, t12, t13, rfl,
        h1, h2, h3, h4, h5, h6, h7, h8, h9, h10, h11, h12, h13⟩, rfl⟩
    exact ⟨(), _, ⟨t1, rfl, h1⟩, _, _, ⟨_, _, ⟨t2, rfl, h2, rfl⟩, (), _, ⟨t3, rfl, h3⟩,
      _, _, ⟨(), _, ⟨t4, rfl, h4⟩, (), _, ⟨t5, rfl, h5⟩, _, _, ⟨t6, rfl, h6, rfl⟩,
        (), _, ⟨t7, rfl, h7⟩, (), _, ⟨t8, rfl, h8⟩, _, _, ⟨t9, rfl, h9, rfl⟩,
        (), _, ⟨t10, rfl, h10⟩, (), _, ⟨t11, rfl, h11⟩, _, _, ⟨t12, rfl, h12, rfl⟩, rfl, rfl⟩,
      (), _, ⟨t13, rfl, h13⟩, rfl, rfl⟩, rfl, rfl⟩

theorem parseAgentAlt_eq_matched (toks rest : List Token) (v : Node) :
    parseAgentAlt toks = .matched v rest ↔
      ∃ nt, toks = nt ++ rest ∧ Derives agentRule nt ∧ v = agentOf nt := by
  simp only [derives_agentRule]
  simp only [parseAgentAlt, parseAgentNode, parseAgentBody, Parsed.next_eq_matched,
    Parsed.must_eq_matched, literal_eq_matched, reference_eq_matched, Parsed.matched.injEq]
  constructor
  · rintro ⟨_, _, ⟨t1, rfl, h1⟩, _, _, ⟨_, _, ⟨t2, rfl, h2, rfl⟩, _, _, ⟨t3, rfl, h3⟩,
      _, _, ⟨_, _, ⟨t4, rfl, h4⟩, _, _, ⟨t5, rfl, h5⟩, _, _, ⟨t6, rfl, h6, rfl⟩,
        _, _, ⟨t7, rfl, h7⟩, _, _, ⟨t8, rfl, h8, rfl⟩, _, _, ⟨t9, rfl, h9⟩,
        _, _, ⟨t10, rfl, h10⟩, _, _, ⟨t11, rfl, h11, rfl⟩, _, _, ⟨t12, rfl, h12⟩,
        _, _, ⟨t13, rfl, h13⟩, _, _, ⟨t14, rfl, h14, rfl⟩, rfl, rfl⟩,
      _, _, ⟨t15, rfl, h15⟩, rfl, rfl⟩, rfl, rfl⟩
    exact ⟨[t1, t2, t3, t4, t5, t6, t7, t8, t9, t10, t11, t12, t13, t14, t15], rfl,
      ⟨t1, t2, t3, t4, t5, t6, t7, t8, t9, t10, t11, t12, t13, t14, t15, rfl,
        h1, h2, h3, h4, h5, h6, h7, h8, h9, h10, h11, h12, h13, h14, h15⟩, rfl⟩
  · rintro ⟨_, rfl, ⟨t1, t2, t3, t4, t5, t6, t7, t8, t9, t10, t11, t12, t13, t14, t15, rfl,
        h1, h2, h3, h4, h5, h6, h7, h8, h9, h10, h11, h12, h13, h14, h15⟩, rfl⟩
    exact ⟨(), _, ⟨t1, rfl, h1⟩, _, _, ⟨_, _, ⟨t2, rfl, h2, rfl⟩, (), _, ⟨t3, rfl, h3⟩,
      _, _, ⟨(), _, ⟨t4, rfl, h4⟩, (), _, ⟨t5, rfl, h5⟩, _, _, ⟨t6, rfl, h6, rfl⟩,
        (), _, ⟨t7, rfl, h7⟩, _, _, ⟨t8, rfl, h8, rfl⟩, (), _, ⟨t9, rfl, h9⟩,
        (), _, ⟨t10, rfl, h10⟩, _, _, ⟨t11, rfl, h11, rfl⟩, (), _, ⟨t12, rfl, h12⟩,
        (), _, ⟨t13, rfl, h13⟩, _, _, ⟨t14, rfl, h14, rfl⟩, rfl, rfl⟩,
      (), _, ⟨t15, rfl, h15⟩, rfl, rfl⟩, rfl, rfl⟩

theorem literal_cons_eq {s : List Char} {t : Token} (rest : List Token) (h : t.Value = s) :
    literal s (t :: rest) = .matched () rest := by
  simp only [literal, h, if_true]

theorem literal_cons_ne {s : List Char} {t : Token} (rest : List Token) (h : t.Value ≠ s) :
    literal s (t :: rest) = .noMatch := by
  simp only [literal, h, if_false]

theorem parseComputeAlt_cons_ne {t : Token} (rest : List Token)
    (h : t.Value ≠ "compute".toList) : parseComputeAlt (t :: rest) = .noMatch := by
  unfold parseComputeAlt
  rw [literal_cons_ne rest h]
  rfl

theorem parseAgentAlt_cons_ne {t : Token} (rest : List Token)
    (h : t.Value ≠ "agent".toList) : parseAgentAlt (t :: rest) = .noMatch := by
  unfold parseAgentAlt
  rw [literal_cons_ne rest h]
  rfl

theorem parseComputeAlt_cons_eq {t : Token} (rest : List Token)
    (h : t.Value = "compute".toList) : parseComputeAlt (t :: rest) ≠ .noMatch := by
  unfold parseComputeAlt
  rw [literal_cons_eq rest h]
  simp only [Parsed.next]
  cases (parseComputeNode rest) <;> simp [Parsed.must]

theorem parseAgentAlt_cons_eq {t : Token} (rest : List Token)
    (h : t.Value = "agent".toList) : parseAgentAlt (t :: rest) ≠ .noMatch := by
  unfold parseAgentAlt
  rw [literal_cons_eq rest h]
  simp only [Parsed.next]
  cases (parseAgentNode rest) <;> simp [Parsed.must]

/-- After an error in the first alternative of `Node` the second cannot match:
the first token is `compute`, not `agent`. -/
theorem parseAgentAlt_of_compute_failed (toks : List Token)
    (h : parseComputeAlt toks = .failed) : parseAgentAlt toks = .noMatch := by
  cases toks with
  | nil => rfl
  | cons t rest =>
    by_cases hc : t.Value = "compute".toList
    · exact parseAgentAlt_cons_ne rest (by rw [hc]; decide)
    · rw [parseComputeAlt_cons_ne rest hc] at h
      cases h

theorem parseNode_eq_matched (toks rest : List Token) (v : Node) :
    parseNode toks = .matched v rest ↔ ∃ nt, toks = nt ++ rest ∧ NodeParse nt v := by
  constructor
  · intro h
    unfold parseNode at h
    cases hc : parseComputeAlt toks with
    | matched v1 r1 =>
      rw [hc] at h
      simp only [Parsed.matched.injEq] at h
      obtain ⟨rfl, rfl⟩ := h
      obtain ⟨nt, rfl, hd, rfl⟩ := (parseComputeAlt_eq_matched _ _ _).1 hc
      exact ⟨nt, rfl, NodeParse.compute nt hd⟩
    | failed => rw [hc] at h; cases h
    | noMatch =>
      rw [hc] at h
      obtain ⟨nt, rfl, hd, rfl⟩ := (parseAgentAlt_eq_matched _ _ _).1 h
      exact ⟨nt, rfl, NodeParse.agent nt hd⟩
  · rintro ⟨nt, rfl, hn⟩
    cases hn with
    | compute hd =>
      unfold parseNode
      rw [(parseComputeAlt_eq_matched _ _ _).2 ⟨nt, rfl, hd, rfl⟩]
    | agent hd =>
      have ha := (parseAgentAlt_eq_matched (nt ++ rest) rest _).2 ⟨nt, rfl, hd, rfl⟩
      obtain ⟨t1, t2, t3, t4, t5, t6, t7, t8, t9, t10, t11, t12, t13, t14, t15, rfl, h1, -⟩ :=
        (derives_agentRule nt).1 hd
      have hne : t1.Value ≠ "compute".toList := by rw [h1]; decide
      unfold parseNode
      rw [ha]
      rw [List.cons_append, parseComputeAlt_cons_ne _ hne]

theorem parseNode_noMatch_iff (toks : List Token) :
    parseNode toks = .noMatch ↔
      ∀ t, toks.head? = some t → t.Value ≠ "compute".toList ∧ t.Value ≠ "agent".toList := by
  cases toks with
  | nil => simp [parseNode, parseComputeAlt, parseAgentAlt, literal, Parsed.next]
  | cons t rest =>
    simp only [List.head?_cons, Option.some.injEq, forall_eq']
    by_cases hc : t.Value = "compute".toList
    · have := parseComputeAlt_cons_eq rest hc
      unfold parseNode
      cases h : parseComputeAlt (t :: rest) with
      | matched => simp [hc]
      | failed => simp [hc]
      | noMatch => exact absurd h this
    · unfold parseNode
      rw [parseComputeAlt_cons_ne rest hc]
      by_cases ha : t.Value = "agent".toList
      · have := parseAgentAlt_cons_eq rest ha
        simp only [this, false_iff]
        exact fun h => h.2 ha
      · simp only [parseAgentAlt_cons_ne rest ha, true_iff]
        exact ⟨hc, ha⟩

theorem parseNodes_ne_noMatch (n : Nat) (toks : List Token) :
    parseNodes n toks ≠ .noMatch := by
  cases n with
  | zero => simp [parseNodes]
  | succ n =>
    simp only [parseNodes]
    split
    · split <;> simp
    · simp
    · simp

theorem parseNodes_nil (n : Nat) : parseNodes (n + 1) [] = .matched [] [] := by
  have : parseNode [] = .noMatch := (parseNode_noMatch_iff []).2 (by simp)
  simp only [parseNodes, this]

/-- Blocks at the front of the stream are consumed one per iteration; the loop
then goes on with what follows them. -/
theorem parseNodes_append {pt : List Token} {vs : List Node} (h : ProgramParse pt vs) :
    ∀ (n : Nat) (rest : List Token), vs.length < n →
      parseNodes n (pt ++ rest) =
        match parseNodes (n - vs.length) rest with
        | .matched ws r => .matched (vs ++ ws) r
        | _ => .failed := by
  induction h with
  | nil =>
    intro n rest _
    simp only [List.nil_append, List.length_nil, Nat.sub_zero]
    have := parseNodes_ne_noMatch n rest
    cases h : parseNodes n rest with
    | matched ws r => rfl
    | noMatch => exact absurd h this
    | failed => rfl
  | cons nt rest0 v vs0 hn _ ih =>
    intro n rest hlen
    cases n with
    | zero => simp at hlen
    | succ m =>
      simp only [List.length_cons, Nat.succ_lt_succ_iff] at hlen
      have h1 : parseNode (nt ++ (rest0 ++ rest)) = .matched v (rest0 ++ rest) :=
        (parseNode_eq_matched _ _ _).2 ⟨nt, rfl, hn⟩
      rw [List.append_assoc, parseNodes, h1]
      simp only [ih m rest hlen, List.length_cons, Nat.add_sub_add_right]
      cases parseNodes (m - vs0.length) rest <;> rfl

theorem parseNodes_eq_matched (n : Nat) :
    ∀ (toks rest : List Token) (vs : List Node), parseNodes n toks = .matched vs rest →
      ∃ pt, toks = pt ++ rest ∧ ProgramParse pt vs ∧ vs.length < n ∧
        parseNode rest = .noMatch := by
  induction n with
  | zero => intro toks rest vs h; simp [parseNodes] at h
  | succ n ih =>
    intro toks rest vs h
    simp only [parseNodes] at h
    cases hn : parseNode toks with
    | matched v r1 =>
      simp only [hn] at h
      cases hr : parseNodes n r1 with
      | matched vs1 r2 =>
        simp only [hr] at h
        simp only [Parsed.matched.injEq] at h
        obtain ⟨rfl, rfl⟩ := h
        obtain ⟨pt, rfl, hp, hl, hnm⟩ := ih _ _ _ hr
        obtain ⟨nt, rfl, hnp⟩ := (parseNode_eq_matched _ _ _).1 hn
        refine ⟨nt ++ pt, by simp, ProgramParse.cons nt pt v vs1 hnp hp, ?_, hnm⟩
        simp only [List.length_cons]
        omega
      | noMatch => simp [hr] at h
      | failed => simp [hr] at h
    | noMatch =>
      simp only [hn] at h
      simp only [Parsed.matched.injEq] at h
      obtain ⟨rfl, rfl⟩ := h
      exact ⟨[], rfl, ProgramParse.nil, by simp, hn⟩
    | failed => simp [hn] at h

/-- The parse succeeds exactly on `Node*` with fewer blocks than the bound. -/
theorem parseProgram_eq_program (toks : List Token) (P : Program) :
    parseProgram toks = .program P ↔
      ProgramParse toks P.Nodes ∧ P.Nodes.length < MaxIterations := by
  constructor
  · intro h
    unfold parseProgram at h
    split at h
    · rename_i nodes hm
      simp only [ParseResult.program.injEq] at h
      subst h
      obtain ⟨pt, rfl, hp, hl, -⟩ := parseNodes_eq_matched _ _ _ _ hm
      simpa using ⟨hp, hl⟩
    · cases h
  · rintro ⟨hp, hl⟩
    have := parseNodes_append hp MaxIterations [] hl
    obtain ⟨k, hk⟩ : ∃ k, MaxIterations - P.Nodes.length = k + 1 :=
      ⟨MaxIterations - P.Nodes.length - 1, by omega⟩
    rw [hk, parseNodes_nil, List.append_nil] at this
    unfold parseProgram
    rw [this]
    simp

theorem parseProgram_cases (toks : List Token) :
    parseProgram toks = .parseError ∨ ∃ P, parseProgram toks = .program P := by
  unfold parseProgram
  split
  · exact Or.inr ⟨_, rfl⟩
  · exact Or.inl rfl

/-! ## Scans: inversion, splitting and joining -/

theorem Lexes.inv_cons {data : List Char} {t : Token} {toks : List Token}
    (h : Lexes data (t :: toks)) :
    ∃ r, data = t.Value ++ r ∧ Shape t.Kind t.Value ∧ Stops t.Kind r ∧ Lexes r toks := by
  cases h with
  | cons _ r _ hs hr hl => exact ⟨r, rfl, hs, hr, hl⟩

theorem Lexes.nil_left {toks : List Token} (h : Lexes [] toks) : toks = [] := by
  cases toks with
  | nil => rfl
  | cons t toks =>
    obtain ⟨r, hd, hs, -, -⟩ := h.inv_cons
    have := hs.ne_nil
    cases hv : t.Value with
    | nil => exact absurd hv this
    | cons c cs => rw [hv] at hd; cases hd

/-- A scan loses no text: the token texts concatenate to the data. -/
theorem Lexes.flatten_values {data : List Char} {toks : List Token} (h : Lexes data toks) :
    (toks.map Token.Value).flatten = data := by
  induction h with
  | nil => rfl
  | cons t r toks _ _ _ ih => simp [ih]

theorem Stops.of_head {ty : TokenType} {r r1 : List Char} (h : Stops ty r)
    (hh : r1.head? = r.head?) : Stops ty r1 := by
  cases ty <;> simp only [Stops] at h ⊢ <;> first | trivial | (rw [hh]; exact h)

theorem Stops.nil (ty : TokenType) : Stops ty [] := by
  cases ty <;> simp [Stops]

theorem Stops.append_right {ty : TokenType} {r : List Char} (h : Stops ty r) (b : List Char)
    (hne : r ≠ []) : Stops ty (r ++ b) := by
  apply h.of_head
  cases r with
  | nil => exact absurd rfl hne
  | cons c cs => rfl

theorem Stops.of_append {ty : TokenType} {r b : List Char} (h : Stops ty (r ++ b)) :
    Stops ty r := by
  cases r with
  | nil => exact Stops.nil ty
  | cons c cs => exact h.of_head rfl

/-- A scan of `a ++ b` that has a token boundary at the end of `a` is a scan of
`a` followed by a scan of `b`. -/
theorem Lexes.split (ta : List Token) :
    ∀ (a b : List Char) (tb : List Token), Lexes (a ++ b) (ta ++ tb) →
      (ta.map Token.Value).flatten = a → Lexes a ta ∧ Lexes b tb := by
  induction ta with
  | nil =>
    intro a b tb h hj
    simp only [List.map_nil, List.flatten_nil] at hj
    subst hj
    exact ⟨Lexes.nil, h⟩
  | cons t ta ih =>
    intro a b tb h hj
    simp only [List.map_cons, List.flatten_cons] at hj
    subst hj
    obtain ⟨r, hd, hs, hr, hl⟩ := Lexes.inv_cons h
    rw [List.append_assoc] at hd
    have hr' := List.append_cancel_left hd
    subst hr'
    obtain ⟨h1, h2⟩ := ih _ _ _ hl rfl
    exact ⟨Lexes.cons t _ ta hs hr.of_append h1, h2⟩


theorem Shape.head {ty : TokenType} {v : List Char} (h : Shape ty v) :
    ∃ c cs, v = c :: cs ∧ startsWith ty c := by
  cases ty <;> simp only [Shape] at h
  · obtain ⟨b, rfl, _⟩ := h; exact ⟨_, _, rfl, rfl⟩
  · obtain ⟨c, cs, rfl, hc, _⟩ := h; exact ⟨_, _, rfl, hc⟩
  · obtain ⟨b, rfl, _⟩ := h; exact ⟨_, _, rfl, rfl⟩
  · obtain ⟨c, rfl, hc⟩ := h; exact ⟨_, _, rfl, hc⟩
  · obtain ⟨c, cs, rfl, hc, _⟩ := h; exact ⟨_, _, rfl, hc⟩

theorem startsWith_space {ty : TokenType} {c : Char} (h : startsWith ty c)
    (hc : isSpace c = true) : ty = .whitespace := by
  cases ty <;> simp only [startsWith] at h
  · exact absurd h (space_ne_slash hc)
  · rfl
  · exact absurd h (space_ne_quote hc)
  · rw [space_not_punct hc] at h; cases h
  · have := isIdentChar_of_start h
    rw [space_not_identChar hc] at this; cases this

theorem startsWith_punct {ty : TokenType} {c : Char} (h : startsWith ty c)
    (hc : isPunct c = true) : ty = .Punct := by
  cases ty <;> simp only [startsWith] at h
  · exact absurd h (punct_ne_slash hc)
  · rw [punct_not_space hc] at h; cases h
  · exact absurd h (punct_ne_quote hc)
  · rfl
  · have := isIdentChar_of_start h
    rw [punct_not_identChar hc] at this; cases this

theorem startsWith_not_identChar {ty : TokenType} {c : Char} (h : startsWith ty c)
    (hty : isElided ty = true) : isIdentChar c = false := by
  cases ty <;> simp only [startsWith, isElided] at h hty
  · subst h; decide
  · exact space_not_identChar h
  all_goals cases hty

/-- The last character of an identifier is an identifier character. -/
theorem Shape.ident_last {v : List Char} (h : Shape .Ident v) :
    ∀ x, v.getLast? = some x → isIdentChar x = true := by
  obtain ⟨c, cs, rfl, hc, hcs⟩ := h
  intro x hx
  have : x ∈ c :: cs := List.mem_of_getLast?_eq_some hx
  rcases List.mem_cons.1 this with rfl | h1
  · exact isIdentChar_of_start hc
  · exact hcs x h1

theorem Elide_append (l1 l2 : List Token) : Elide (l1 ++ l2) = Elide l1 ++ Elide l2 := by
  simp [Elide]

theorem Elide_cons_elided {t : Token} (l : List Token) (h : isElided t.Kind = true) :
    Elide (t :: l) = Elide l := by
  simp [Elide, h]

theorem Elide_cons_kept {t : Token} (l : List Token) (h : isElided t.Kind = false) :
    Elide (t :: l) = t :: Elide l := by
  simp [Elide, h]

theorem Lexes.tokens_ne_nil {data : List Char} {toks : List Token} (h : Lexes data toks)
    (hd : data ≠ []) : toks ≠ [] := by
  rintro rfl
  cases h
  exact hd rfl

/-- Joining two scans. Unless an identifier would run on into the second text,
the scan of `a ++ b` shows the grammar the tokens of `a` followed by those of `b`
(two whitespace runs that meet merge into one, which is elided either way). -/
theorem Lexes.append {a : List Char} {ta : List Token} (ha : Lexes a ta) :
    ∀ (b : List Char) (tb : List Token), Lexes b tb →
      (∀ x y, a.getLast? = some x → b.head? = some y → isIdentChar x = true →
        isIdentChar y = false) →
      ∃ t, Lexes (a ++ b) t ∧ Elide t = Elide ta ++ Elide tb := by
  induction ha with
  | nil =>
    intro b tb hb _
    exact ⟨tb, by simpa using hb, by simp [Elide]⟩
  | cons t r toks hs hr hl ih =>
    intro b tb hb hcond
    by_cases hr0 : r = []
    · subst hr0
      have htoks := hl.nil_left
      subst htoks
      rw [List.append_nil] at hcond ⊢
      cases b with
      | nil =>
        have := hb.nil_left
        subst this
        refine ⟨[t], ?_, by simp [Elide]⟩
        have := Lexes.cons t [] [] hs (Stops.nil _) Lexes.nil
        simpa using this
      | cons y b1 =>
        have plain : Stops t.Kind (y :: b1) → ∃ t1, Lexes (t.Value ++ y :: b1) t1 ∧
            Elide t1 = Elide [t] ++ Elide tb := fun hst =>
          ⟨t :: tb, Lexes.cons t _ tb hs hst hb, by
            rw [← List.singleton_append, Elide_append]⟩
        cases hk : t.Kind with
        | comment => exact plain (by rw [hk]; trivial)
        | String => exact plain (by rw [hk]; trivial)
        | Punct => exact plain (by rw [hk]; trivial)
        | Ident =>
          apply plain
          rw [hk]
          intro c hc
          simp only [List.head?_cons, Option.some.injEq] at hc
          subst hc
          rw [hk] at hs
          obtain ⟨x, hx⟩ : ∃ x, t.Value.getLast? = some x := by
            cases hv : t.Value.getLast? with
            | none => exact absurd (List.getLast?_eq_none_iff.1 hv) hs.ne_nil
            | some x => exact ⟨x, rfl⟩
          exact hcond x _ hx rfl (hs.ident_last x hx)
        | whitespace =>
          by_cases hy : isSpace y = true
          · cases tb with
            | nil => exact absurd rfl (hb.tokens_ne_nil (by simp))
            | cons t0 tb1 =>
              obtain ⟨r0, hd0, hs0, hr0, hl0⟩ := hb.inv_cons
              obtain ⟨c0, cs0, hv0, hst0⟩ := hs0.head
              rw [hv0, List.cons_append, List.cons.injEq] at hd0
              obtain ⟨rfl, hb1⟩ := hd0
              have hk0 : t0.Kind = .whitespace := startsWith_space hst0 hy
              rw [hk] at hs
              rw [hk0] at hs0 hr0
              obtain ⟨c, cs, hv, hc, hcs⟩ := hs
              obtain ⟨c1, cs1, hv1, hc1, hcs1⟩ := hs0
              refine ⟨⟨.whitespace, t.Value ++ t0.Value, t.Pos⟩ :: tb1, ?_, ?_⟩
              · have := Lexes.cons ⟨.whitespace, t.Value ++ t0.Value, t.Pos⟩ r0 tb1
                  ⟨c, cs ++ t0.Value, by simp [hv], hc, by
                    intro x hx
                    rcases List.mem_append.1 hx with h | h
                    · exact hcs x h
                    · rw [hv1] at h
                      rcases List.mem_cons.1 h with rfl | h
                      · exact hc1
                      · exact hcs1 x h⟩ hr0 hl0
                simpa [hv0, hb1] using this
              · rw [Elide_cons_elided _ (by rfl : isElided TokenType.whitespace = true),
                  Elide_cons_elided [] (by rw [hk]; rfl),
                  Elide_cons_elided tb1 (by rw [hk0]; rfl)]
                rfl
          · apply plain
            rw [hk]
            intro c hc
            simp only [List.head?_cons, Option.some.injEq] at hc
            subst hc
            simpa using hy
    · have hlast : (t.Value ++ r).getLast? = r.getLast? := List.getLast?_append_of_ne_nil _ hr0
      obtain ⟨t1, h1, h2⟩ := ih b tb hb (fun x y hx hy => hcond x y (by rw [hlast]; exact hx) hy)
      refine ⟨t :: t1, ?_, ?_⟩
      · rw [List.append_assoc]
        exact Lexes.cons t _ t1 hs (hr.append_right b hr0) h1
      · rw [← List.singleton_append, Elide_append, h2, ← List.append_assoc, ← Elide_append]
        rfl

theorem Blank.head_not_ident {s : List Char} (h : Blank s) :
    ∀ y, s.head? = some y → isIdentChar y = false := by
  cases h with
  | nil => simp
  | space c s hc _ =>
    intro y hy
    simp only [List.head?_cons, Option.some.injEq] at hy
    subst hy
    exact space_not_identChar hc
  | comment body s _ _ =>
    intro y hy
    simp only [List.head?_cons, Option.some.injEq] at hy
    subst hy
    decide

theorem Blank.last {s : List Char} (h : Blank s) :
    ∀ x, s.getLast? = some x → isIdentChar x = false := by
  induction h with
  | nil => simp
  | space c s hc _ ih =>
    intro x hx
    cases s with
    | nil =>
      simp only [List.getLast?_singleton, Option.some.injEq] at hx
      subst hx
      exact space_not_identChar hc
    | cons d s =>
      rw [List.getLast?_cons_cons] at hx
      exact ih x hx
  | comment body s _ _ ih =>
    intro x hx
    have e : '/' :: '/' :: (body ++ '\n' :: s) = ('/' :: '/' :: body) ++ '\n' :: s := by simp
    rw [e, List.getLast?_append_of_ne_nil _ (by simp)] at hx
    cases s with
    | nil =>
      simp only [List.getLast?_singleton, Option.some.injEq] at hx
      subst hx
      decide
    | cons d s =>
      rw [List.getLast?_cons_cons] at hx
      exact ih x hx

/-- Blank text scans into tokens that are all elided. -/
theorem Blank.lexes {s : List Char} (h : Blank s) :
    ∃ toks, Lexes s toks ∧ Elide toks = [] := by
  induction h with
  | nil => exact ⟨[], Lexes.nil, rfl⟩
  | space c s hc _ ih =>
    obtain ⟨toks, hl, he⟩ := ih
    have h1 : Lexes [c] [⟨.whitespace, [c], Position.start⟩] := by
      have := Lexes.cons ⟨.whitespace, [c], Position.start⟩ [] []
        ⟨c, [], rfl, hc, by simp⟩ (Stops.nil _) Lexes.nil
      simpa using this
    obtain ⟨t, ht, hte⟩ := h1.append s toks hl (by
      intro x y hx _ hxi
      simp only [List.getLast?_singleton, Option.some.injEq] at hx
      subst hx
      rw [space_not_identChar hc] at hxi
      cases hxi)
    refine ⟨t, by simpa using ht, ?_⟩
    rw [hte, he, Elide_cons_elided _ (by rfl)]
    rfl
  | comment body s hb _ ih =>
    obtain ⟨toks, hl, he⟩ := ih
    have h1 : Lexes ('/' :: '/' :: (body ++ ['\n']))
        [⟨.comment, '/' :: '/' :: (body ++ ['\n']), Position.start⟩] := by
      have := Lexes.cons ⟨.comment, '/' :: '/' :: (body ++ ['\n']), Position.start⟩ [] []
        ⟨body, rfl, hb⟩ (Stops.nil _) Lexes.nil
      simpa using this
    obtain ⟨t, ht, hte⟩ := h1.append s toks hl (by
      intro x y hx _ hxi
      have e : '/' :: '/' :: (body ++ ['\n']) = ('/' :: '/' :: body) ++ ['\n'] := by simp
      rw [e, List.getLast?_append_of_ne_nil _ (by simp)] at hx
      simp only [List.getLast?_singleton, Option.some.injEq] at hx
      subst hx
      exact absurd hxi (by decide))
    refine ⟨t, by simpa using ht, ?_⟩
    rw [hte, he, Elide_cons_elided _ (by rfl)]
    rfl

theorem parseProgram_nil : parseProgram [] = .program ⟨[]⟩ :=
  (parseProgram_eq_program [] ⟨[]⟩).2 ⟨ProgramParse.nil, by decide⟩

theorem Lexes.head_of_elided {s : List Char} {toks : List Token} (h : Lexes s toks)
    (he : Elide toks = []) : ∀ y, s.head? = some y → isIdentChar y = false := by
  intro y hy
  cases toks with
  | nil =>
    cases h
    simp at hy
  | cons t toks =>
    obtain ⟨r, hd, hs, -, -⟩ := h.inv_cons
    obtain ⟨c, cs, hv, hst⟩ := hs.head
    rw [hd, hv] at hy
    simp only [List.cons_append, List.head?_cons, Option.some.injEq] at hy
    subst hy
    apply startsWith_not_identChar hst
    cases hk : isElided t.Kind with
    | true => rfl
    | false => rw [Elide_cons_kept _ hk] at he; cases he

/-! ## Positions -/

theorem byteLen_append (a b : List Char) : byteLen (a ++ b) = byteLen a + byteLen b := by
  induction a with
  | nil => simp [byteLen]
  | cons c a ih => simp [byteLen, ih, Nat.add_assoc]

theorem runesFromLastNewline_append_of_mem (a b : List Char) (h : '\n' ∈ b) :
    runesFromLastNewline (a ++ b) = runesFromLastNewline b := by
  unfold runesFromLastNewline
  rw [List.reverse_append, List.takeWhile_append]
  have : ¬ (List.takeWhile (fun c => c != '\n') b.reverse).length = b.reverse.length := by
    intro hl
    have h1 : List.takeWhile (fun c => c != '\n') b.reverse = b.reverse := by
      have := List.takeWhile_append_dropWhile (fun c => c != '\n') b.reverse
      have h2 : (List.dropWhile (fun c => c != '\n') b.reverse).length = 0 := by
        have := congrArg List.length this
        rw [List.length_append] at this
        omega
      rw [List.length_eq_zero] at h2
      rw [h2, List.append_nil] at this
      exact this
    have := List.takeWhile_eq_self_iff.1 h1 '\n' (List.mem_reverse.2 h)
    simp at this
  rw [if_neg this]

theorem runesFromLastNewline_append_of_not_mem (a b : List Char) (h : '\n' ∉ b) :
    runesFromLastNewline (a ++ b) = runesFromLastNewline a + b.length := by
  unfold runesFromLastNewline
  rw [List.reverse_append, List.takeWhile_append_of_pos]
  · simp only [List.length_append, List.length_reverse]
    omega
  · intro x hx
    have : x ≠ '\n' := by
      rintro rfl
      exact h (List.mem_reverse.1 hx)
    simpa using this

/-- Advancing over two spans in turn is advancing over their concatenation. -/
theorem Position.Advance_append (p : Position) (a b : List Char) :
    (p.Advance a).Advance b = p.Advance (a ++ b) := by
  simp only [Position.Advance, List.count_append, byteLen_append, List.length_append,
    Position.mk.injEq]
  refine ⟨by omega, by omega, ?_⟩
  by_cases hb : List.count '\n' b = 0
  · have hb' : '\n' ∉ b := List.count_eq_zero.1 hb
    by_cases ha : List.count '\n' a = 0
    · simp only [ha, hb, if_true, Nat.add_zero]
      omega
    · simp only [ha, hb, if_true, if_false, Nat.add_zero]
      rw [runesFromLastNewline_append_of_not_mem a b hb']
  · have hb' : '\n' ∈ b := by
      by_contra hn
      exact hb (List.count_eq_zero.2 hn)
    have : ¬ List.count '\n' a + List.count '\n' b = 0 := by omega
    simp only [hb, this, if_false]
    rw [runesFromLastNewline_append_of_mem a b hb']

theorem Position.Advance_nil (p : Position) : p.Advance [] = p := by
  simp [Position.Advance, byteLen]


theorem isIdentStart_of_not_identChar {c : Char} (h : isIdentChar c = false) :
    isIdentStart c = false := by
  cases hs : isIdentStart c with
  | false => rfl
  | true => rw [isIdentChar_of_start hs] at h; cases h

theorem matchFirst_outside {c : Char} (h : OutsideRules c) (rest : List Char) :
    matchFirst Root (c :: rest) = none := by
  obtain ⟨h1, h2, h3, h4, h5⟩ := h
  rw [matchFirst_Root, matchComment_none _ h5, matchWhitespace_none _ h1,
    matchString_none _ h4, matchPunct_none _ h3,
    matchIdent_none _ (isIdentStart_of_not_identChar h2)]

theorem Stops.outside (ty : TokenType) {c : Char} (h : OutsideRules c) (rest : List Char) :
    Stops ty (c :: rest) := by
  cases ty <;> simp only [Stops, List.head?_cons, Option.some.injEq, forall_eq']
  · exact h.1
  · exact h.2.1

/-- When the text before an outside character scans, the scan of the whole
stops exactly at that character. -/
theorem lexTokens_stuck {pre : List Char} {tp : List Token} (h : Lexes pre tp) :
    ∀ (fuel : Nat) (pos : Position) (c : Char) (rest : List Char), OutsideRules c →
      (pre ++ c :: rest).length < fuel →
      lexTokens fuel pos (pre ++ c :: rest) = .error ⟨pos.Advance pre⟩ := by
  induction h with
  | nil =>
    intro fuel pos c rest hc hf
    cases fuel with
    | zero => simp at hf
    | succ fuel =>
      rw [List.nil_append, lexTokens_succ _ _ _ (by simp), matchFirst_outside hc,
        Position.Advance_nil]
  | cons t r toks hs hr _ ih =>
    intro fuel pos c rest hc hf
    cases fuel with
    | zero => simp at hf
    | succ fuel =>
      have hst : Stops t.Kind (r ++ c :: rest) := by
        by_cases hr0 : r = []
        · subst hr0; exact Stops.outside _ hc rest
        · exact hr.append_right _ hr0
      have hlen : 0 < t.Value.length := List.length_pos.2 hs.ne_nil
      have hf2 : (r ++ c :: rest).length < fuel := by
        simp only [List.length_append, List.length_cons] at hf ⊢
        omega
      rw [List.append_assoc, lexTokens_succ _ _ _ (by simp [hs.ne_nil]),
        (matchFirst_iff _ _ _ _).2 ⟨rfl, hs, hst⟩]
      simp only [ih fuel (pos.Advance t.Value) c rest hc hf2, Position.Advance_append]

theorem Lexes.shape_of_mem {data : List Char} {toks : List Token} (h : Lexes data toks) :
    ∀ t ∈ toks, Shape t.Kind t.Value := by
  induction h with
  | nil => simp
  | cons t r toks hs _ _ ih =>
    intro t1 h1
    rcases List.mem_cons.1 h1 with rfl | h2
    · exact hs
    · exact ih t1 h2

theorem Elide_subset (toks : List Token) : ∀ t ∈ Elide toks, t ∈ toks := by
  intro t ht
  exact (List.mem_filter.1 ht).1

theorem ProgramParse.node_of_mem {toks : List Token} {vs : List Node}
    (h : ProgramParse toks vs) :
    ∀ v ∈ vs, ∃ nt, NodeParse nt v ∧ ∀ t ∈ nt, t ∈ toks := by
  induction h with
  | nil => simp
  | cons nt rest v vs hn _ ih =>
    intro v1 h1
    rcases List.mem_cons.1 h1 with rfl | h2
    · exact ⟨nt, hn, fun t ht => List.mem_append_left _ ht⟩
    · obtain ⟨nt1, hn1, hsub⟩ := ih v1 h2
      exact ⟨nt1, hn1, fun t ht => List.mem_append_right _ (hsub t ht)⟩

/-- The code field of a node is the text of a `String` token of its block. -/
theorem NodeParse.code {nt : List Token} {v : Node} (h : NodeParse nt v) :
    (∀ c, v.Compute = some c → ∃ t ∈ nt, t.Kind = .String ∧ t.Value = c.Body.Code) ∧
      (∀ a, v.Agent = some a → ∃ t ∈ nt, t.Kind = .String ∧ t.Value = a.Body.Code) := by
  cases h with
  | compute hd =>
    obtain ⟨t1, t2, t3, t4, t5, t6, t7, t8, t9, t10, t11, t12, t13, rfl,
      -, -, -, -, -, -, -, -, -, -, -, h12, -⟩ := (derives_computeRule nt).1 hd
    constructor
    · intro c hc
      simp only [computeOf, Option.some.injEq] at hc
      subst hc
      exact ⟨t12, by simp, h12, rfl⟩
    · intro a ha
      simp [computeOf] at ha
  | agent hd =>
    obtain ⟨t1, t2, t3, t4, t5, t6, t7, t8, t9, t10, t11, t12, t13, t14, t15, rfl,
      -, -, -, -, -, -, -, -, -, -, -, -, -, h14, -⟩ := (derives_agentRule nt).1 hd
    constructor
    · intro c hc
      simp [agentOf] at hc
    · intro a ha
      simp only [agentOf, Option.some.injEq] at ha
      subst ha
      exact ⟨t14, by simp, h14, rfl⟩

/-- A node denoted by a block has exactly one member set. -/
theorem NodeParse.one_member {nt : List Token} {v : Node} (h : NodeParse nt v) :
    (v.Compute.isSome = true ∧ v.Agent = none) ∨ (v.Compute = none ∧ v.Agent.isSome = true) := by
  cases h with
  | compute hd =>
    obtain ⟨t1, t2, t3, t4, t5, t6, t7, t8, t9, t10, t11, t12, t13, rfl, -⟩ :=
      (derives_computeRule nt).1 hd
    exact Or.inl ⟨rfl, rfl⟩
  | agent hd =>
    obtain ⟨t1, t2, t3, t4, t5, t6, t7, t8, t9, t10, t11, t12, t13, t14, t15, rfl, -⟩ :=
      (derives_agentRule nt).1 hd
    exact Or.inr ⟨rfl, rfl⟩

/-- A successful parse, unfolded: the source scans, and the elided tokens are
`Node*` for the nodes of the program. -/
theorem ParseString_eq_program {input : String} {P : Program}
    (h : ParseString input = .program P) :
    ∃ toks, Tokenize input.toList = .ok toks ∧ Lexes input.toList toks ∧
      ProgramParse (Elide toks) P.Nodes ∧ P.Nodes.length < MaxIterations := by
  unfold ParseString at h
  cases ht : Tokenize input.toList with
  | error e => rw [ht] at h; cases h
  | ok toks =>
    rw [ht] at h
    have := (parseProgram_eq_program _ _).1 h
    exact ⟨toks, rfl, lexes_of_Tokenize ht, this.1, this.2⟩

set_option maxRecDepth 100000 in
theorem ParseString_canonicalInput : ParseString canonicalInput = .program canonicalProgram := by
  decide

theorem NodeParse.ends_with_brace {nt : List Token} {v : Node} (h : NodeParse nt v) :
    ∃ init t, nt = init ++ [t] ∧ t.Value = "\x7d".toList := by
  cases h with
  | compute hd =>
    obtain ⟨t1, t2, t3, t4, t5, t6, t7, t8, t9, t10, t11, t12, t13, rfl,
      -, -, -, -, -, -, -, -, -, -, -, -, h13⟩ := (derives_computeRule nt).1 hd
    exact ⟨[t1, t2, t3, t4, t5, t6, t7, t8, t9, t10, t11, t12], t13, rfl, h13⟩
  | agent hd =>
    obtain ⟨t1, t2, t3, t4, t5, t6, t7, t8, t9, t10, t11, t12, t13, t14, t15, rfl,
      -, -, -, -, -, -, -, -, -, -, -, -, -, -, h15⟩ := (derives_agentRule nt).1 hd
    exact ⟨[t1, t2, t3, t4, t5, t6, t7, t8, t9, t10, t11, t12, t13, t14], t15, rfl, h15⟩

/-- The last token of a non-empty `Node*` stream is a closing brace. -/
theorem ProgramParse.last_value {toks : List Token} {vs : List Node}
    (h : ProgramParse toks vs) :
    ∀ t, toks.getLast? = some t → t.Value = "\x7d".toList := by
  induction h with
  | nil => simp
  | cons nt rest v vs hn _ ih =>
    intro t ht
    by_cases hr : rest = []
    · subst hr
      obtain ⟨init, t0, rfl, h0⟩ := hn.ends_with_brace
      rw [List.append_nil, List.getLast?_append_of_ne_nil _ (by simp)] at ht
      simp only [List.getLast?_singleton, Option.some.injEq] at ht
      subst ht
      exact h0
    · rw [List.getLast?_append_of_ne_nil _ hr] at ht
      exact ih t ht

/-- A closing brace after a complete `Node*` stream is a token left over. -/
theorem parseProgram_snoc_brace {toks : List Token} {vs : List Node}
    (h : ProgramParse toks vs) (hlen : vs.length < MaxIterations) (t : Token)
    (ht : t.Value = "\x7d".toList) : parseProgram (toks ++ [t]) = .parseError := by
  have h1 := parseNodes_append h MaxIterations [t] hlen
  obtain ⟨k, hk⟩ : ∃ k, MaxIterations - vs.length = k + 1 :=
    ⟨MaxIterations - vs.length - 1, by omega⟩
  have h2 : parseNode [t] = .noMatch :=
    (parseNode_noMatch_iff [t]).2 (by
      intro t0 h0
      simp only [List.head?_cons, Option.some.injEq] at h0
      subst h0
      rw [ht]
      exact ⟨by decide, by decide⟩)
  have h3 : parseNodes (k + 1) [t] = .matched [] [t] := by
    simp only [parseNodes, h2]
  rw [hk, h3] at h1
  unfold parseProgram
  rw [h1]

/-! ## Scanning rendered text -/

theorem Stops.append_iff {ty : TokenType} {v : List Char} (r : List Char) (hv : v ≠ []) :
    Stops ty (v ++ r) ↔ Stops ty v := by
  constructor
  · intro h; exact h.of_append
  · intro h; exact h.append_right r hv

/-- Token texts written one after the other scan back into those tokens when each
has its rule's shape and no greedy run can go on into the next text. -/
theorem lexes_render (ks : List (TokenType × List Char))
    (hshape : ∀ k ∈ ks, Shape k.1 k.2)
    (hadj : List.Chain' (fun k1 k2 => Stops k1.1 k2.2) ks) :
    Lexes (render ks) (ks.map mkToken) := by
  induction ks with
  | nil => exact Lexes.nil
  | cons k ks ih =>
    have h1 := ih (fun x hx => hshape x (List.mem_cons_of_mem _ hx)) hadj.tail
    have hst : Stops k.1 (render ks) := by
      cases ks with
      | nil => exact Stops.nil _
      | cons k2 ks2 =>
        have h2 : Stops k.1 k2.2 := (List.chain'_cons.1 hadj).1
        exact h2.append_right _ (hshape k2 (by simp)).ne_nil
    exact Lexes.cons (mkToken k) (render ks) (ks.map mkToken) (hshape k (by simp)) hst h1

theorem Stops.space_ident {v : List Char} (h : Shape .Ident v) : Stops .whitespace v := by
  obtain ⟨c, cs, rfl, hc, -⟩ := h
  intro x hx
  simp only [List.head?_cons, Option.some.injEq] at hx
  subst hx
  exact identChar_not_space (isIdentChar_of_start hc)

theorem Shape.space : Shape .whitespace " ".toList := ⟨' ', [], rfl, by decide, by simp⟩

theorem Shape.ident_lit (c : Char) (cs : List Char) (hc : isIdentStart c = true)
    (hcs : cs.all isIdentChar = true) : Shape .Ident (c :: cs) :=
  ⟨c, cs, rfl, hc, fun x hx => List.all_eq_true.1 hcs x hx⟩

theorem Shape.punct_lit (c : Char) (hc : isPunct c = true) : Shape .Punct [c] := ⟨c, rfl, hc⟩

theorem Shape.string_lit (s : List Char) (hs : ∀ x ∈ s, x ≠ '"') :
    Shape .String ('"' :: (s ++ ['"'])) := ⟨s, rfl, hs⟩

theorem keyword_is_ident {k : List Char} (hk : k ∈ keywords) : Shape .Ident k := by
  simp only [keywords, List.mem_cons, List.mem_singleton, List.not_mem_nil, or_false] at hk
  rcases hk with rfl | rfl | rfl | rfl | rfl | rfl | rfl <;>
    exact Shape.ident_lit _ _ (by decide) (by decide)

theorem lexes_computeText (n i o s : List Char) (hn : Shape .Ident n) (hi : Shape .Ident i)
    (ho : Shape .Ident o) (hs : ∀ x ∈ s, x ≠ '"') :
    Lexes (computeText n i o s) ((computeKeys n i o s).map mkToken) := by
  apply lexes_render
  · intro k hk
    simp only [computeKeys, List.mem_cons, List.mem_singleton, List.not_mem_nil, or_false] at hk
    rcases hk with rfl | rfl | rfl | rfl | rfl | rfl | rfl | rfl | rfl | rfl | rfl | rfl | rfl |
      rfl | rfl | rfl | rfl | rfl | rfl | rfl | rfl | rfl
    all_goals first
      | exact Shape.space
      | exact hn
      | exact hi
      | exact ho
      | exact Shape.string_lit s hs
      | exact Shape.punct_lit _ (by decide)
      | exact Shape.ident_lit _ _ (by decide) (by decide)
  · simp only [computeKeys, List.chain'_cons, List.chain'_singleton, and_true]
    refine ⟨?_, ?_, ?_, ?_, ?_, ?_, ?_, ?_, ?_, ?_, ?_, ?_, ?_, ?_, ?_, ?_, ?_, ?_, ?_, ?_, ?_⟩
    all_goals first
      | trivial
      | exact Stops.space_ident hn
      | exact Stops.space_ident hi
      | exact Stops.space_ident ho
      | (intro x hx; simp only [String.toList, List.head?_cons, Option.some.injEq] at hx;
         subst hx; decide)

theorem lexes_agentText (n a b c s : List Char) (hn : Shape .Ident n) (ha : Shape .Ident a)
    (hb : Shape .Ident b) (hc : Shape .Ident c) (hs : ∀ x ∈ s, x ≠ '"') :
    Lexes (agentText n a b c s) ((agentKeys n a b c s).map mkToken) := by
  apply lexes_render
  · intro k hk
    simp only [agentKeys, List.mem_cons, List.mem_singleton, List.not_mem_nil, or_false] at hk
    rcases hk with rfl | rfl | rfl | rfl | rfl | rfl | rfl | rfl | rfl | rfl | rfl | rfl | rfl |
      rfl | rfl | rfl | rfl | rfl | rfl | rfl | rfl | rfl | rfl | rfl
    all_goals first
      | exact Shape.space
      | exact hn
      | exact ha
      | exact hb
      | exact hc
      | exact Shape.string_lit s hs
      | exact Shape.punct_lit _ (by decide)
      | exact Shape.ident_lit _ _ (by decide) (by decide)
  · simp only [agentKeys, List.chain'_cons, List.chain'_singleton, and_true]
    refine ⟨?_, ?_, ?_, ?_, ?_, ?_, ?_, ?_, ?_, ?_, ?_, ?_, ?_, ?_, ?_, ?_, ?_, ?_, ?_, ?_, ?_,
      ?_, ?_⟩
    all_goals first
      | trivial
      | exact Stops.space_ident hn
      | exact Stops.space_ident ha
      | exact Stops.space_ident hc
      | (intro x hx; simp only [String.toList, List.head?_cons, Option.some.injEq] at hx;
         subst hx; decide)

/-- A single-spaced compute block parses to the Compute node of its texts. -/
theorem ParseString_computeText (n i o s : List Char) (hn : Shape .Ident n)
    (hi : Shape .Ident i) (ho : Shape .Ident o) (hs : ∀ x ∈ s, x ≠ '"') :
    ParseString (String.mk (computeText n i o s)) =
      .program ⟨[⟨some ⟨n, ⟨i, o, '"' :: (s ++ ['"'])⟩⟩, none⟩]⟩ := by
  rw [ParseString_of_lexes (String.mk (computeText n i o s)) _
    (lexes_computeText n i o s hn hi ho hs)]
  apply (parseProgram_eq_program _ _).2
  refine ⟨?_, show 1 < MaxIterations by decide⟩
  have hd : Derives computeRule (Elide ((computeKeys n i o s).map mkToken)) := by
    apply (derives_computeRule _).2
    exact ⟨_, _, _, _, _, _, _, _, _, _, _, _, _, rfl, rfl, rfl, rfl, rfl, rfl, rfl, rfl, rfl,
      rfl, rfl, rfl, rfl, rfl⟩
  have := ProgramParse.cons _ [] _ [] (NodeParse.compute _ hd) ProgramParse.nil
  rw [List.append_nil] at this
  exact this

/-- A single-spaced agent block parses to the Agent node of its texts; the two
halves of `watches` come out joined by the dot. -/
theorem ParseString_agentText (n a b c s : List Char) (hn : Shape .Ident n)
    (ha : Shape .Ident a) (hb : Shape .Ident b) (hc : Shape .Ident c)
    (hs : ∀ x ∈ s, x ≠ '"') :
    ParseString (String.mk (agentText n a b c s)) =
      .program ⟨[⟨none, some ⟨n, ⟨a ++ ".".toList ++ b, c, '"' :: (s ++ ['"'])⟩⟩⟩]⟩ := by
  rw [ParseString_of_lexes (String.mk (agentText n a b c s)) _
    (lexes_agentText n a b c s hn ha hb hc hs)]
  apply (parseProgram_eq_program _ _).2
  refine ⟨?_, show 1 < MaxIterations by decide⟩
  have hd : Derives agentRule (Elide ((agentKeys n a b c s).map mkToken)) := by
    apply (derives_agentRule _).2
    exact ⟨_, _, _, _, _, _, _, _, _, _, _, _, _, _, _, rfl, rfl, rfl, rfl, rfl, rfl, rfl, rfl,
      rfl, rfl, rfl, rfl, rfl, rfl, rfl, rfl⟩
  have := ProgramParse.cons _ [] _ [] (NodeParse.agent _ hd) ProgramParse.nil
  rw [List.append_nil] at this
  exact this

/-! ## The grammar as a derivation -/

theorem derivesProgram_of_programParse {toks : List Token} {vs : List Node}
    (h : ProgramParse toks vs) : DerivesProgram toks vs.length := by
  induction h with
  | nil => exact DerivesProgram.nil
  | cons nt rest v vs hn _ ih =>
    cases hn with
    | compute hd => exact DerivesProgram.compute nt rest _ hd ih
    | agent hd => exact DerivesProgram.agent nt rest _ hd ih

theorem programParse_of_derivesProgram {toks : List Token} {n : Nat}
    (h : DerivesProgram toks n) : ∃ vs, ProgramParse toks vs ∧ vs.length = n := by
  induction h with
  | nil => exact ⟨[], ProgramParse.nil, rfl⟩
  | compute nt rest n hd _ ih =>
    obtain ⟨vs, hp, hl⟩ := ih
    exact ⟨_ :: vs, ProgramParse.cons nt rest _ vs (NodeParse.compute nt hd) hp, by simp [hl]⟩
  | agent nt rest n hd _ ih =>
    obtain ⟨vs, hp, hl⟩ := ih
    exact ⟨_ :: vs, ProgramParse.cons nt rest _ vs (NodeParse.agent nt hd) hp, by simp [hl]⟩

theorem Sym.accepts_unstamp (s : Sym) (t : Token) : s.accepts (unstamp t) ↔ s.accepts t := by
  cases s <;> exact Iff.rfl

theorem derives_unstamp (rule : List Sym) (toks : List Token) :
    Derives rule (toks.map unstamp) ↔ Derives rule toks := by
  unfold Derives
  rw [List.forall₂_map_right_iff]
  constructor <;> intro h <;>
    exact h.imp (fun s t hst => by first
      | exact (Sym.accepts_unstamp s t).1 hst
      | exact (Sym.accepts_unstamp s t).2 hst)

theorem DerivesProgram.of_unstamp {ys : List Token} {n : Nat} (h : DerivesProgram ys n) :
    ∀ xs : List Token, xs.map unstamp = ys → DerivesProgram xs n := by
  induction h with
  | nil =>
    intro xs hx
    rw [List.map_eq_nil_iff] at hx
    subst hx
    exact DerivesProgram.nil
  | compute nt rest n hd _ ih =>
    intro xs hx
    obtain ⟨x1, x2, rfl, h1, h2⟩ := List.map_eq_append_iff.1 hx
    subst h1
    exact DerivesProgram.compute x1 x2 n ((derives_unstamp _ _).1 hd) (ih x2 h2)
  | agent nt rest n hd _ ih =>
    intro xs hx
    obtain ⟨x1, x2, rfl, h1, h2⟩ := List.map_eq_append_iff.1 hx
    subst h1
    exact DerivesProgram.agent x1 x2 n ((derives_unstamp _ _).1 hd) (ih x2 h2)

/-! ## A derivable source at the bound -/

theorem parseNodes_replicate {nt : List Token} {v : Node} (hn : NodeParse nt v) :
    ∀ (n : Nat) (rest : List Token),
      parseNodes n ((List.replicate n nt).flatten ++ rest) = .failed := by
  intro n
  induction n with
  | zero => intro rest; rfl
  | succ n ih =>
    intro rest
    rw [List.replicate_succ, List.flatten_cons, List.append_assoc, parseNodes,
      (parseNode_eq_matched _ _ _).2 ⟨nt, rfl, hn⟩]
    simp only [ih rest]

theorem derivesProgram_replicate {nt : List Token} (hd : Derives computeRule nt) :
    ∀ n : Nat, DerivesProgram (List.replicate n nt).flatten n := by
  intro n
  induction n with
  | zero => exact DerivesProgram.nil
  | succ n ih =>
    rw [List.replicate_succ, List.flatten_cons]
    exact DerivesProgram.compute nt _ n hd ih

theorem lexes_replicate {block : List Char} {tb : List Token} (hb : Lexes block tb)
    (hlast : ∀ x, block.getLast? = some x → isIdentChar x = false) :
    ∀ n : Nat, ∃ t, Lexes (List.replicate n block).flatten t ∧
      Elide t = (List.replicate n (Elide tb)).flatten := by
  intro n
  induction n with
  | zero => exact ⟨[], Lexes.nil, rfl⟩
  | succ n ih =>
    obtain ⟨t, ht, he⟩ := ih
    obtain ⟨t1, h1, h2⟩ := hb.append _ t ht (by
      intro x y hx _ hxi
      rw [hlast x hx] at hxi
      cases hxi)
    refine ⟨t1, ?_, ?_⟩
    · rw [List.replicate_succ, List.flatten_cons]
      exact h1
    · rw [h2, he, List.replicate_succ, List.flatten_cons]

theorem derives_computeKeys (n i o s : List Char) :
    Derives computeRule (Elide ((computeKeys n i o s).map mkToken)) := by
  apply (derives_computeRule _).2
  exact ⟨_, _, _, _, _, _, _, _, _, _, _, _, _, rfl, rfl, rfl, rfl, rfl, rfl, rfl, rfl, rfl,
    rfl, rfl, rfl, rfl, rfl⟩

theorem unstamp_mkToken (ks : List (TokenType × List Char)) :
    (Elide (ks.map mkToken)).map unstamp = Elide (ks.map mkToken) := by
  rw [← Elide_unstamp, List.map_map]
  rfl

theorem Tokenize_of_lexes {source : List Char} {toks : List Token} (h : Lexes source toks) :
    ∃ toks1, Tokenize source = .ok toks1 ∧ toks1.map unstamp = toks.map unstamp :=
  lexTokens_of_lexes h (source.length + 1) Position.start (Nat.lt_add_one _)

theorem ParseString_mk_of_lexes (source : List Char) (toks : List Token)
    (h : Lexes source toks) : ParseString (String.mk source) = parseProgram (Elide toks) :=
  ParseString_of_lexes (String.mk source) toks h

theorem overflowBlock_last : ∀ x, overflowBlock.getLast? = some x → isIdentChar x = false := by
  have : overflowBlock.getLast? = some '\x7d' := by decide
  intro x hx
  rw [this] at hx
  simp only [Option.some.injEq] at hx
  subst hx
  decide

theorem lexes_overflowBlock :
    Lexes overflowBlock ((computeKeys "a".toList "a".toList "a".toList []).map mkToken) :=
  lexes_computeText _ _ _ _ (Shape.ident_lit _ _ (by decide) (by decide))
    (Shape.ident_lit _ _ (by decide) (by decide))
    (Shape.ident_lit _ _ (by decide) (by decide)) (by simp)

/-- Any number of compute blocks written one after the other scan into a
derivable token sequence of that many nodes. -/
theorem replicate_blocks_scan (n : Nat) :
    ∃ toks t, Tokenize (List.replicate n overflowBlock).flatten = .ok toks ∧
      DerivesProgram (Elide toks) n ∧ Lexes (List.replicate n overflowBlock).flatten t ∧
      Elide t = (List.replicate n
        (Elide ((computeKeys "a".toList "a".toList "a".toList []).map mkToken))).flatten := by
  have hd := derives_computeKeys "a".toList "a".toList "a".toList []
  obtain ⟨t, ht, he⟩ := lexes_replicate lexes_overflowBlock overflowBlock_last n
  obtain ⟨toks1, h1, h2⟩ := Tokenize_of_lexes ht
  refine ⟨toks1, t, h1, ?_, ht, he⟩
  refine DerivesProgram.of_unstamp (derivesProgram_replicate hd n) _ ?_
  rw [← Elide_unstamp, h2, Elide_unstamp, he, List.map_flatten, List.map_replicate,
    unstamp_mkToken]

/-- The source of `MaxIterations` compute blocks scans, its elided tokens are
derivable from the grammar, and its parse is a parse error. -/
theorem overflowSource_fails :
    ∃ toks, Tokenize overflowSource = .ok toks ∧
      DerivesProgram (Elide toks) MaxIterations ∧
      ParseString (String.mk overflowSource) = .parseError := by
  obtain ⟨toks, t, h1, h2, h3, h4⟩ := replicate_blocks_scan MaxIterations
  refine ⟨toks, h1, h2, ?_⟩
  have hd := derives_computeKeys "a".toList "a".toList "a".toList []
  have h5 := parseNodes_replicate (NodeParse.compute _ hd) MaxIterations []
  rw [List.append_nil, ← h4] at h5
  have h6 : parseProgram (Elide t) = .parseError := by
    unfold parseProgram
    rw [h5]
  rw [← h6]
  exact ParseString_mk_of_lexes _ t h3

/-! ## Concatenating sources -/

theorem String.toList_append_eq (s1 s2 : String) :
    (s1 ++ s2).toList = s1.toList ++ s2.toList := by
  cases s1; cases s2; rfl

theorem String.mk_append_mk (a b : List Char) :
    String.mk a ++ String.mk b = String.mk (a ++ b) := rfl

theorem Shape.last_identChar {ty : TokenType} {v : List Char} (h : Shape ty v) :
    ∀ x, v.getLast? = some x → isIdentChar x = true → ty = .Ident := by
  intro x hx hxi
  cases ty <;> simp only [Shape] at h
  · obtain ⟨body, rfl, -⟩ := h
    have e : '/' :: '/' :: (body ++ ['\n']) = ('/' :: '/' :: body) ++ ['\n'] := by simp
    rw [e, List.getLast?_append_of_ne_nil _ (by simp)] at hx
    simp only [List.getLast?_singleton, Option.some.injEq] at hx
    subst hx
    exact absurd hxi (by decide)
  · obtain ⟨c, cs, rfl, hc, hcs⟩ := h
    have hm : x ∈ c :: cs := List.mem_of_getLast?_eq_some hx
    have hsp : isSpace x = true := by
      rcases List.mem_cons.1 hm with rfl | h1
      · exact hc
      · exact hcs x h1
    rw [space_not_identChar hsp] at hxi
    cases hxi
  · obtain ⟨body, rfl, -⟩ := h
    have e : '"' :: (body ++ ['"']) = ('"' :: body) ++ ['"'] := by simp
    rw [e, List.getLast?_append_of_ne_nil _ (by simp)] at hx
    simp only [List.getLast?_singleton, Option.some.injEq] at hx
    subst hx
    exact absurd hxi (by decide)
  · obtain ⟨c, rfl, hc⟩ := h
    simp only [List.getLast?_singleton, Option.some.injEq] at hx
    subst hx
    rw [punct_not_identChar hc] at hxi
    cases hxi
  · rfl

/-- When scanned text ends in an identifier character, its last token is an
identifier. -/
theorem Lexes.last_ident {data : List Char} {toks : List Token} (h : Lexes data toks) :
    ∀ x, data.getLast? = some x → isIdentChar x = true →
      ∃ t, toks.getLast? = some t ∧ t.Kind = .Ident := by
  induction h with
  | nil => simp
  | cons t r toks hs hr hl ih =>
    intro x hx hxi
    by_cases hr0 : r = []
    · subst hr0
      have := hl.nil_left
      subst this
      rw [List.append_nil] at hx
      exact ⟨t, rfl, hs.last_identChar x hx hxi⟩
    · rw [List.getLast?_append_of_ne_nil _ hr0] at hx
      obtain ⟨t1, h1, h2⟩ := ih x hx hxi
      refine ⟨t1, ?_, h2⟩
      cases toks with
      | nil => simp at h1
      | cons a as => rw [List.getLast?_cons_cons]; exact h1

theorem Elide_getLast {toks : List Token} {t : Token} (h : toks.getLast? = some t)
    (hk : isElided t.Kind = false) : (Elide toks).getLast? = some t := by
  obtain ⟨init, rfl⟩ := List.getLast?_eq_some_iff.1 h
  rw [Elide_append, Elide_cons_kept _ hk]
  simp [Elide]

/-- A source that parses does not end in an identifier character: its last
token is elided or is the closing brace of its last block. -/
theorem last_char_of_parsed {data : List Char} {toks : List Token} {vs : List Node}
    (hl : Lexes data toks) (hp : ProgramParse (Elide toks) vs) :
    ∀ x, data.getLast? = some x → isIdentChar x = true → False := by
  intro x hx hxi
  obtain ⟨t, ht, hk⟩ := hl.last_ident x hx hxi
  have he := Elide_getLast ht (by rw [hk]; rfl)
  have hv := hp.last_value t he
  have hs := hl.shape_of_mem t (List.mem_of_getLast?_eq_some ht)
  rw [hk, hv] at hs
  obtain ⟨c, cs, hcc, hc, -⟩ := hs
  simp only [String.toList, List.cons.injEq] at hcc
  obtain ⟨rfl, -⟩ := hcc
  exact absurd hc (by decide)

theorem ProgramParse.append_programs {a : List Token} {va : List Node}
    (ha : ProgramParse a va) {b : List Token} {vb : List Node} (hb : ProgramParse b vb) :
    ProgramParse (a ++ b) (va ++ vb) := by
  induction ha with
  | nil => exact hb
  | cons nt rest v vs hn _ ih =>
    rw [List.append_assoc]
    exact ProgramParse.cons nt (rest ++ b) v (vs ++ vb) hn ih

/-- Two sources that parse, written one after the other, parse to the nodes of
the first followed by the nodes of the second, as long as the bound on
repetitions is not reached. -/
theorem ParseString_append (s1 s2 : String) (P1 P2 : Program)
    (h1 : ParseString s1 = .program P1) (h2 : ParseString s2 = .program P2)
    (hlen : P1.Nodes.length + P2.Nodes.length < MaxIterations) :
    ParseString (s1 ++ s2) = .program ⟨P1.Nodes ++ P2.Nodes⟩ := by
  obtain ⟨t1, -, hl1, hp1, -⟩ := ParseString_eq_program h1
  obtain ⟨t2, -, hl2, hp2, -⟩ := ParseString_eq_program h2
  obtain ⟨t, ht, he⟩ := hl1.append s2.toList t2 hl2
    (fun x _ hx _ hxi => (last_char_of_parsed hl1 hp1 x hx hxi).elim)
  rw [← String.toList_append_eq] at ht
  rw [ParseString_of_lexes (s1 ++ s2) t ht, he]
  apply (parseProgram_eq_program _ _).2
  refine ⟨hp1.append_programs hp2, ?_⟩
  simpa using hlen

theorem programParse_replicate {nt : List Token} {v : Node} (hn : NodeParse nt v) :
    ∀ n : Nat, ProgramParse (List.replicate n nt).flatten (List.replicate n v) := by
  intro n
  induction n with
  | zero => exact ProgramParse.nil
  | succ n ih =>
    rw [List.replicate_succ, List.flatten_cons, List.replicate_succ]
    exact ProgramParse.cons nt _ v _ hn ih

/-- Fewer compute blocks than the bound, written one after the other, parse to
that many nodes. -/
theorem ParseString_replicate_blocks (n : Nat) (hn : n < MaxIterations) :
    ∃ P, ParseString (String.mk (List.replicate n overflowBlock).flatten) = .program P ∧
      P.Nodes.length = n := by
  obtain ⟨toks, t, -, -, h3, h4⟩ := replicate_blocks_scan n
  have hd := derives_computeKeys "a".toList "a".toList "a".toList []
  have hp := programParse_replicate (NodeParse.compute _ hd) n
  rw [← h4] at hp
  refine ⟨⟨List.replicate n (computeOf
    (Elide ((computeKeys "a".toList "a".toList "a".toList []).map mkToken)))⟩, ?_, by simp⟩
  rw [ParseString_mk_of_lexes _ t h3]
  exact (parseProgram_eq_program _ _).2 ⟨hp, by simpa using hn⟩

theorem replicate_flatten_succ (n : Nat) (block : List Char) :
    block ++ (List.replicate n block).flatten = (List.replicate (n + 1) block).flatten := by
  rw [List.replicate_succ, List.flatten_cons]

theorem overflowBlock_append_almost :
    overflowBlock ++ almostOverflowSource = overflowSource := by
  unfold almostOverflowSource overflowSource
  rw [replicate_flatten_succ]
  rfl

/-- One block parses, 999999 blocks parse, and the two written one after the
other do not. -/
theorem append_at_bound_fails :
    ∃ P1 P2, ParseString (String.mk overflowBlock) = .program P1 ∧
      ParseString (String.mk almostOverflowSource) = .program P2 ∧
      ParseString (String.mk overflowBlock ++ String.mk almostOverflowSource) =
        .parseError := by
  obtain ⟨P1, h1, -⟩ := ParseString_replicate_blocks 1 (by decide)
  obtain ⟨P2, h2, -⟩ := ParseString_replicate_blocks 999999 (by decide)
  have e1 : (List.replicate 1 overflowBlock).flatten = overflowBlock := by
    simp [List.replicate]
  rw [e1] at h1
  refine ⟨P1, P2, h1, h2, ?_⟩
  obtain ⟨toks, -, -, h⟩ := overflowSource_fails
  rw [String.mk_append_mk, overflowBlock_append_almost]
  exact h

/-! ## Termination of the scan, positions of tokens, maximal runs -/

/-- Each token of a scan started at `pos` sits at `pos` advanced over the
texts of the tokens before it. -/
theorem lexTokens_positions (fuel : Nat) :
    ∀ (pos : Position) (data : List Char) (toks : List Token),
      lexTokens fuel pos data = .ok toks →
      ∀ (t1 : List Token) (t : Token) (t2 : List Token), toks = t1 ++ t :: t2 →
        t.Pos = pos.Advance (t1.map Token.Value).flatten := by
  induction fuel with
  | zero =>
    intro pos data toks h t1 t t2 ht
    cases data with
    | nil =>
      simp only [lexTokens, Except.ok.injEq] at h
      subst h
      cases t1 <;> cases ht
    | cons c cs => simp [lexTokens] at h
  | succ fuel ih =>
    intro pos data toks h t1 t t2 ht
    cases data with
    | nil =>
      simp only [lexTokens, Except.ok.injEq] at h
      subst h
      cases t1 <;> cases ht
    | cons c cs =>
      rw [lexTokens_succ _ _ _ (by simp)] at h
      split at h
      · cases h
      · rename_i ty span rest hm
        split at h
        · rename_i toks1 h1
          simp only [Except.ok.injEq] at h
          subst h
          cases t1 with
          | nil =>
            simp only [List.nil_append, List.cons.injEq] at ht
            obtain ⟨rfl, -⟩ := ht
            simp [Position.Advance_nil]
          | cons a t1 =>
            simp only [List.cons_append, List.cons.injEq] at ht
            obtain ⟨rfl, ht⟩ := ht
            rw [ih _ _ _ h1 t1 t t2 ht]
            simp [Position.Advance_append]
        · cases h

/-- Every token of a scan ends where its greedy run ends: the text of the
tokens after it does not continue it. -/
theorem Lexes.stops_at {data : List Char} {toks : List Token} (h : Lexes data toks) :
    ∀ (t1 : List Token) (t : Token) (t2 : List Token), toks = t1 ++ t :: t2 →
      Stops t.Kind (t2.map Token.Value).flatten := by
  induction h with
  | nil => intro t1 t t2 ht; cases t1 <;> cases ht
  | cons t0 r toks hs hr hl ih =>
    intro t1 t t2 ht
    cases t1 with
    | nil =>
      simp only [List.nil_append, List.cons.injEq] at ht
      obtain ⟨rfl, rfl⟩ := ht
      rw [hl.flatten_values]
      exact hr
    | cons a t1 =>
      simp only [List.cons_append, List.cons.injEq] at ht
      exact ih t1 t t2 ht.2

/-- When the text before a character scans, no rule matches at the character,
and the character is neither whitespace nor an identifier character, the scan
of the whole stops exactly at that character. -/
theorem lexTokens_stuck_at {pre : List Char} {tp : List Token} (h : Lexes pre tp) :
    ∀ (fuel : Nat) (pos : Position) (c : Char) (rest : List Char),
      matchFirst Root (c :: rest) = none → isSpace c = false → isIdentChar c = false →
      (pre ++ c :: rest).length < fuel →
      lexTokens fuel pos (pre ++ c :: rest) = .error ⟨pos.Advance pre⟩ := by
  induction h with
  | nil =>
    intro fuel pos c rest hm _ _ hf
    cases fuel with
    | zero => simp at hf
    | succ fuel =>
      rw [List.nil_append, lexTokens_succ _ _ _ (by simp), hm, Position.Advance_nil]
  | cons t r toks hs hr _ ih =>
    intro fuel pos c rest hm hsp hid hf
    cases fuel with
    | zero => simp at hf
    | succ fuel =>
      have hst : Stops t.Kind (r ++ c :: rest) := by
        by_cases hr0 : r = []
        · subst hr0
          cases hk : t.Kind <;>
            simp only [Stops, List.nil_append, List.head?_cons, Option.some.injEq, forall_eq']
          · exact hsp
          · exact hid
        · exact hr.append_right _ hr0
      have hlen : 0 < t.Value.length := List.length_pos.2 hs.ne_nil
      have hf2 : (r ++ c :: rest).length < fuel := by
        simp only [List.length_append, List.length_cons] at hf ⊢
        omega
      rw [List.append_assoc, lexTokens_succ _ _ _ (by simp [hs.ne_nil]),
        (matchFirst_iff _ _ _ _).2 ⟨rfl, hs, hst⟩]
      simp only [ih fuel (pos.Advance t.Value) c rest hm hsp hid hf2, Position.Advance_append]

/-- An opening quote with no quote after it matches no rule. -/
theorem matchFirst_open_quote (rest : List Char) (h : ∀ x ∈ rest, x ≠ '"') :
    matchFirst Root ('"' :: rest) = none := by
  have hd : rest.dropWhile (fun c => c != '"') = [] := by
    rw [List.dropWhile_eq_nil_iff]
    intro x hx
    simpa using h x hx
  rw [matchFirst_Root, matchComment_none _ (by decide), matchWhitespace_none _ (by decide),
    matchPunct_none _ (by decide), matchIdent_none _ (by decide)]
  simp [matchString, hd]

/-! ## The order of the rule table -/

theorem lexTokensWith_Root (fuel : Nat) :
    ∀ (pos : Position) (data : List Char),
      lexTokensWith Root fuel pos data = lexTokens fuel pos data := by
  induction fuel with
  | zero => intro pos data; cases data <;> rfl
  | succ fuel ih =>
    intro pos data
    cases data with
    | nil => rfl
    | cons c cs =>
      simp only [lexTokensWith, lexTokens, ih]

theorem lexTokensWith_congr {rules1 rules2 : List Rule}
    (h : ∀ data, matchFirst rules1 data = matchFirst rules2 data) (fuel : Nat) :
    ∀ (pos : Position) (data : List Char),
      lexTokensWith rules1 fuel pos data = lexTokensWith rules2 fuel pos data := by
  induction fuel with
  | zero => intro pos data; cases data <;> rfl
  | succ fuel ih =>
    intro pos data
    cases data with
    | nil => rfl
    | cons c cs => simp only [lexTokensWith, h, ih]

theorem startsWith_startKind {ty : TokenType} {c : Char} (h : startsWith ty c) :
    ty = startKind c := by
  cases ty <;> simp only [startsWith] at h
  · subst h; decide
  · simp [startKind, space_ne_slash h, h]
  · subst h; decide
  · simp [startKind, punct_ne_slash h, punct_not_space h, punct_ne_quote h, h]
  · have hc := isIdentChar_of_start h
    simp [startKind, identChar_ne_slash hc, identChar_not_space hc, identChar_ne_quote hc,
      identChar_not_punct hc]

/-- A rule of the table that matches does so with a span of its shape. -/
theorem Root_pattern_shape {rule : Rule} (hr : rule ∈ Root) {data v r : List Char}
    (h : rule.Pattern data = some (v, r)) : data = v ++ r ∧ Shape rule.Name v := by
  simp only [Root, List.mem_cons, List.mem_singleton, List.not_mem_nil, or_false] at hr
  rcases hr with rfl | rfl | rfl | rfl | rfl
  · exact (matchComment_iff _ _ _).1 h
  · have := (matchWhitespace_iff _ _ _).1 h
    exact ⟨this.1, this.2.1⟩
  · exact (matchString_iff _ _ _).1 h
  · exact (matchPunct_iff _ _ _).1 h
  · have := (matchIdent_iff _ _ _).1 h
    exact ⟨this.1, this.2.1⟩

/-- A rule of the table that matches at `data` is the rule whose start class
holds the first character of `data`. -/
theorem Root_pattern_kind {rule : Rule} (hr : rule ∈ Root) {data : List Char}
    (h : (rule.Pattern data).isSome = true) :
    ∃ c l, data = c :: l ∧ rule.Name = startKind c := by
  obtain ⟨⟨v, r⟩, hx⟩ := Option.isSome_iff_exists.1 h
  obtain ⟨hd, hs⟩ := Root_pattern_shape hr hx
  obtain ⟨c, cs, rfl, hst⟩ := hs.head
  exact ⟨c, cs ++ r, by simpa using hd, startsWith_startKind hst⟩

theorem Root_name_inj {r1 r2 : Rule} (h1 : r1 ∈ Root) (h2 : r2 ∈ Root)
    (h : r1.Name = r2.Name) : r1 = r2 := by
  simp only [Root, List.mem_cons, List.mem_singleton, List.not_mem_nil, or_false] at h1 h2
  rcases h1 with rfl | rfl | rfl | rfl | rfl <;>
    rcases h2 with rfl | rfl | rfl | rfl | rfl <;>
    first | rfl | (exact absurd h (by decide))

/-- At most one rule of the table matches at any text. -/
theorem Root_exclusive (data : List Char) {r1 r2 : Rule} (h1 : r1 ∈ Root) (h2 : r2 ∈ Root)
    (m1 : (r1.Pattern data).isSome = true) (m2 : (r2.Pattern data).isSome = true) :
    r1 = r2 := by
  obtain ⟨c1, l1, hd1, hk1⟩ := Root_pattern_kind h1 m1
  obtain ⟨c2, l2, hd2, hk2⟩ := Root_pattern_kind h2 m2
  rw [hd1, List.cons.injEq] at hd2
  obtain ⟨rfl, -⟩ := hd2
  exact Root_name_inj h1 h2 (hk1.trans hk2.symm)

theorem matchFirst_eq_none_iff (rules : List Rule) (data : List Char) :
    matchFirst rules data = none ↔ ∀ r ∈ rules, r.Pattern data = none := by
  induction rules with
  | nil => simp [matchFirst]
  | cons r rs ih =>
    simp only [matchFirst, List.mem_cons, forall_eq_or_imp]
    cases hp : r.Pattern data with
    | none => simpa using ih
    | some x => simp

theorem matchFirst_eq_some (rules : List Rule) (data : List Char)
    (x : TokenType × List Char × List Char) (h : matchFirst rules data = some x) :
    ∃ r ∈ rules, ∃ v rest, r.Pattern data = some (v, rest) ∧ x = (r.Name, v, rest) := by
  induction rules with
  | nil => simp [matchFirst] at h
  | cons r rs ih =>
    simp only [matchFirst] at h
    cases hp : r.Pattern data with
    | none =>
      rw [hp] at h
      obtain ⟨r1, hr1, v, rest, h1, h2⟩ := ih h
      exact ⟨r1, List.mem_cons_of_mem _ hr1, v, rest, h1, h2⟩
    | some y =>
      obtain ⟨v, rest⟩ := y
      rw [hp] at h
      simp only [Option.some.injEq] at h
      exact ⟨r, List.mem_cons_self _ _, v, rest, hp, h.symm⟩

/-- In a table of which at most one rule matches, the first match is the match
of that rule, wherever it stands in the table. -/
theorem matchFirst_of_exclusive (rules : List Rule) (data : List Char)
    (hex : ∀ r1 ∈ rules, ∀ r2 ∈ rules, (r1.Pattern data).isSome = true →
      (r2.Pattern data).isSome = true → r1 = r2)
    {r : Rule} (hr : r ∈ rules) {v rest : List Char} (h : r.Pattern data = some (v, rest)) :
    matchFirst rules data = some (r.Name, v, rest) := by
  cases hm : matchFirst rules data with
  | none =>
    have := (matchFirst_eq_none_iff rules data).1 hm r hr
    rw [h] at this
    cases this
  | some x =>
    obtain ⟨r1, hr1, v1, rest1, h1, rfl⟩ := matchFirst_eq_some rules data x hm
    have e : r1 = r := hex r1 hr1 r hr (by rw [h1]; rfl) (by rw [h]; rfl)
    subst e
    rw [h] at h1
    simp only [Option.some.injEq, Prod.mk.injEq] at h1
    obtain ⟨rfl, rfl⟩ := h1
    rfl

/-- A table that lists the rules of `Root` in another order finds the same match. -/
theorem matchFirst_perm {rules : List Rule} (hp : rules.Perm Root) (data : List Char) :
    matchFirst rules data = matchFirst Root data := by
  cases hm : matchFirst Root data with
  | none =>
    rw [matchFirst_eq_none_iff] at hm ⊢
    intro r hr
    exact hm r (hp.mem_iff.1 hr)
  | some x =>
    obtain ⟨r, hr, v, rest, h1, rfl⟩ := matchFirst_eq_some Root data x hm
    apply matchFirst_of_exclusive rules data _ (hp.mem_iff.2 hr) h1
    intro r1 h1 r2 h2 m1 m2
    exact Root_exclusive data (hp.mem_iff.1 h1) (hp.mem_iff.1 h2) m1 m2

theorem TokenizeWith_perm {rules : List Rule} (hp : rules.Perm Root) (source : List Char) :
    TokenizeWith rules source = Tokenize source := by
  unfold TokenizeWith Tokenize
  rw [lexTokensWith_congr (matchFirst_perm hp), lexTokensWith_Root]

/-! ## Keywords inside longer identifiers -/

theorem startKind_of_identStart {c : Char} (h : isIdentStart c = true) :
    startKind c = .Ident := by
  have hc := isIdentChar_of_start h
  simp [startKind, identChar_ne_slash hc, identChar_not_space hc, identChar_ne_quote hc,
    identChar_not_punct hc]

/-- A scan of text that starts with an identifier followed by more identifier
characters has, as first token, one identifier that covers them all. -/
theorem Lexes.ident_run {source : List Char} {t : Token} {toks : List Token}
    (h : Lexes source (t :: toks)) (k tail rest : List Char) (hk : Shape .Ident k)
    (htail : ∀ x ∈ tail, isIdentChar x = true) (hsrc : source = k ++ tail ++ rest) :
    t.Kind = .Ident ∧ ∃ more, t.Value = k ++ tail ++ more := by
  obtain ⟨r, hd, hs, hr, -⟩ := h.inv_cons
  obtain ⟨c, cs, hv, hst⟩ := hs.head
  obtain ⟨c0, cs0, hk0, hc0, hcs0⟩ := hk
  have hkind : t.Kind = .Ident := by
    rw [hd, hv, hk0] at hsrc
    simp only [List.cons_append, List.cons.injEq] at hsrc
    obtain ⟨rfl, -⟩ := hsrc
    rw [startsWith_startKind hst, startKind_of_identStart hc0]
  refine ⟨hkind, ?_⟩
  rw [hkind] at hr
  have hall : ∀ x ∈ k ++ tail, isIdentChar x = true := by
    intro x hx
    rcases List.mem_append.1 hx with h1 | h1
    · rw [hk0] at h1
      rcases List.mem_cons.1 h1 with rfl | h2
      · exact isIdentChar_of_start hc0
      · exact hcs0 x h2
    · exact htail x h1
  rw [hd] at hsrc
  rcases List.append_eq_append_iff.1 hsrc with ⟨a, ha, -⟩ | ⟨b, hb, hb2⟩
  · cases a with
    | nil => exact ⟨[], by simpa using ha.symm⟩
    | cons y ys =>
      exfalso
      have hy : isIdentChar y = true := hall y (by rw [ha]; simp)
      have hb2 : r = (y :: ys) ++ rest := by
        have := hsrc
        rw [ha, List.append_assoc] at this
        exact List.append_cancel_left this
      have := hr y (by rw [hb2]; rfl)
      rw [hy] at this
      cases this
  · exact ⟨b, hb⟩

/-! ## The tokens the lexer returns -/

theorem Lex_of_Tokenize {source : List Char} {toks : List Token}
    (h : Tokenize source = .ok toks) : Lex source = .ok (Elide toks) := by
  unfold Lex
  rw [h]

theorem Tokenize_of_Lex {source : List Char} {emitted : List Token}
    (h : Lex source = .ok emitted) :
    ∃ toks, Tokenize source = .ok toks ∧ emitted = Elide toks := by
  unfold Lex at h
  cases ht : Tokenize source with
  | error e => rw [ht] at h; cases h
  | ok toks =>
    rw [ht] at h
    simp only [Except.ok.injEq] at h
    exact ⟨toks, rfl, h.symm⟩

/-- The parse, from the tokens the lexer returns. -/
theorem ParseString_of_Lex (input : String) :
    ParseString input =
      match Lex input.toList with
      | .ok emitted => parseProgram emitted
      | .error e => .lexError e := by
  unfold ParseString Lex
  cases Tokenize input.toList <;> rfl

theorem Blank.append_blank {a : List Char} (ha : Blank a) {b : List Char} (hb : Blank b) :
    Blank (a ++ b) := by
  induction ha with
  | nil => exact hb
  | space c s hc _ ih => exact Blank.space c _ hc ih
  | comment body s hbody _ ih =>
    have e : '/' :: '/' :: (body ++ '\n' :: s) ++ b = '/' :: '/' :: (body ++ '\n' :: (s ++ b)) := by
      simp
    rw [e]
    exact Blank.comment body _ hbody ih

theorem blank_of_spaces (cs : List Char) (h : ∀ x ∈ cs, isSpace x = true) : Blank cs := by
  induction cs with
  | nil => exact Blank.nil
  | cons c cs ih =>
    exact Blank.space c cs (h c (List.mem_cons_self _ _))
      (ih (fun x hx => h x (List.mem_cons_of_mem _ hx)))

/-- The text of a match that the lexer consumes without a token is blank. -/
theorem Shape.blank_of_elided {ty : TokenType} {v : List Char} (h : Shape ty v)
    (he : isElided ty = true) : Blank v := by
  cases ty <;> simp only [Shape, isElided] at h he
  · obtain ⟨body, rfl, hb⟩ := h
    have := Blank.comment body [] hb Blank.nil
    simpa using this
  · obtain ⟨c, cs, rfl, hc, hcs⟩ := h
    exact Blank.space c cs hc (blank_of_spaces cs hcs)
  all_goals cases he

theorem Spans.prepend_blank {b : List Char} (hb : Blank b) {pos : Position}
    {rest : List Char} {toks : List Token} (h : Spans (pos.Advance b) rest toks) :
    Spans pos (b ++ rest) toks := by
  cases h with
  | done _ gap hg => exact Spans.done pos _ (hb.append_blank hg)
  | token _ gap t rest1 toks1 hg hpos hrest =>
    rw [← List.append_assoc]
    refine Spans.token pos (b ++ gap) t rest1 toks1 (hb.append_blank hg) ?_ ?_
    · rw [hpos, Position.Advance_append]
    · rw [Position.Advance_append, ← List.append_assoc] at hrest
      exact hrest

/-- The source is laid out around the returned tokens of its scan. -/
theorem lexTokens_spans (fuel : Nat) :
    ∀ (pos : Position) (data : List Char) (toks : List Token),
      lexTokens fuel pos data = .ok toks → Spans pos data (Elide toks) := by
  induction fuel with
  | zero =>
    intro pos data toks h
    cases data with
    | nil =>
      simp only [lexTokens, Except.ok.injEq] at h
      subst h
      exact Spans.done pos [] Blank.nil
    | cons c cs => simp [lexTokens] at h
  | succ fuel ih =>
    intro pos data toks h
    cases data with
    | nil =>
      simp only [lexTokens, Except.ok.injEq] at h
      subst h
      exact Spans.done pos [] Blank.nil
    | cons c cs =>
      rw [lexTokens_succ _ _ _ (by simp)] at h
      split at h
      · cases h
      · rename_i ty span rest hm
        split at h
        · rename_i toks1 h1
          simp only [Except.ok.injEq] at h
          subst h
          obtain ⟨hd, hs, -⟩ := (matchFirst_iff _ _ _ _).1 hm
          have ih1 := ih _ _ _ h1
          rw [hd]
          cases he : isElided ty with
          | true =>
            rw [Elide_cons_elided _ (by exact he)]
            exact Spans.prepend_blank (hs.blank_of_elided he) ih1
          | false =>
            rw [Elide_cons_kept _ (by exact he)]
            have := Spans.token pos [] ⟨ty, span, pos⟩ rest (Elide toks1) Blank.nil
              (by rw [Position.Advance_nil]) (by simpa using ih1)
            simpa using this
        · cases h

/-- Each returned token's text stands in the source at the token's position:
the position is the start position advanced over all the source text before it. -/
theorem Spans.token_in_source {pos : Position} {source : List Char} {toks : List Token}
    (h : Spans pos source toks) :
    ∀ (e1 : List Token) (t : Token) (e2 : List Token), toks = e1 ++ t :: e2 →
      ∃ before after, source = before ++ (t.Value ++ after) ∧
        t.Pos = pos.Advance before := by
  induction h with
  | done pos gap _ => intro e1 t e2 ht; cases e1 <;> cases ht
  | token pos gap t0 rest toks hg hpos _ ih =>
    intro e1 t e2 ht
    cases e1 with
    | nil =>
      simp only [List.nil_append, List.cons.injEq] at ht
      obtain ⟨rfl, -⟩ := ht
      exact ⟨gap, rest, rfl, hpos⟩
    | cons a e1 =>
      simp only [List.cons_append, List.cons.injEq] at ht
      obtain ⟨before, after, hsrc, hp⟩ := ih e1 t e2 ht.2
      refine ⟨gap ++ t0.Value ++ before, after, ?_, ?_⟩
      · rw [hsrc]; simp
      · rw [hp, Position.Advance_append]

/-! ## Where the scan stops -/

theorem ProgramParse.blocks {toks : List Token} {vs : List Node} (h : ProgramParse toks vs) :
    ∃ blocks : List (List Token), toks = blocks.flatten ∧ List.Forall₂ NodeParse blocks vs := by
  induction h with
  | nil => exact ⟨[], rfl, List.Forall₂.nil⟩
  | cons nt rest v vs hn _ ih =>
    obtain ⟨blocks, hb, hf⟩ := ih
    exact ⟨nt :: blocks, by rw [hb]; rfl, List.Forall₂.cons hn hf⟩

theorem programParse_of_blocks {blocks : List (List Token)} {vs : List Node}
    (h : List.Forall₂ NodeParse blocks vs) : ProgramParse blocks.flatten vs := by
  induction h with
  | nil => exact ProgramParse.nil
  | cons hn _ ih => exact ProgramParse.cons _ _ _ _ hn ih

theorem forall₂_imp_mem {α β : Type} {R Q : α → β → Prop} {l1 : List α} {l2 : List β}
    (h : List.Forall₂ R l1 l2) (himp : ∀ a ∈ l1, ∀ b, R a b → Q a b) :
    List.Forall₂ Q l1 l2 := by
  induction h with
  | nil => exact List.Forall₂.nil
  | cons hr _ ih =>
    exact List.Forall₂.cons (himp _ (List.mem_cons_self _ _) _ hr)
      (ih (fun a ha b hab => himp a (List.mem_cons_of_mem _ ha) b hab))

/-- A block ends with `code`, `:`, a `String` token and the closing brace, and
the code field of its node is the text of that `String` token. -/
theorem NodeParse.code_token {nt : List Token} {v : Node} (h : NodeParse nt v) :
    ∃ front tcode tcolon t closing,
      nt = front ++ [tcode, tcolon, t, closing] ∧
      tcode.Value = "code".toList ∧ tcolon.Value = ":".toList ∧ t.Kind = .String ∧
      closing.Value = "\x7d".toList ∧
      (∀ c, v.Compute = some c → c.Body.Code = t.Value) ∧
      (∀ a, v.Agent = some a → a.Body.Code = t.Value) := by
  cases h with
  | compute hd =>
    obtain ⟨t1, t2, t3, t4, t5, t6, t7, t8, t9, t10, t11, t12, t13, rfl,
      -, -, -, -, -, -, -, -, -, h10, h11, h12, h13⟩ := (derives_computeRule nt).1 hd
    refine ⟨[t1, t2, t3, t4, t5, t6, t7, t8, t9], t10, t11, t12, t13, rfl, h10, h11, h12, h13,
      ?_, ?_⟩
    · intro c hc
      simp only [computeOf, Option.some.injEq] at hc
      subst hc
      rfl
    · intro a ha
      simp [computeOf] at ha
  | agent hd =>
    obtain ⟨t1, t2, t3, t4, t5, t6, t7, t8, t9, t10, t11, t12, t13, t14, t15, rfl,
      -, -, -, -, -, -, -, -, -, -, -, h12, h13, h14, h15⟩ := (derives_agentRule nt).1 hd
    refine ⟨[t1, t2, t3, t4, t5, t6, t7, t8, t9, t10, t11], t12, t13, t14, t15, rfl,
      h12, h13, h14, h15, ?_, ?_⟩
    · intro c hc
      simp [agentOf] at hc
    · intro a ha
      simp only [agentOf, Option.some.injEq] at ha
      subst ha
      rfl

/-- A `String` token the lexer returned is a literal of the source: it stands
at its position, between two quotes, with no quote inside. -/
theorem string_token_in_source {source : List Char} {toks : List Token}
    (h : Tokenize source = .ok toks) {t : Token} (ht : t ∈ Elide toks)
    (hk : t.Kind = .String) :
    ∃ before body after, source = before ++ ('"' :: (body ++ '"' :: after)) ∧
      (∀ x ∈ body, x ≠ '"') ∧ t.Pos = Position.start.Advance before ∧
      t.Value = '"' :: (body ++ ['"']) := by
  obtain ⟨e1, e2, he⟩ := List.append_of_mem ht
  obtain ⟨before, after, hsrc, hpos⟩ := (lexTokens_spans _ _ _ _ h).token_in_source e1 t e2 he
  have hs := (lexes_of_Tokenize h).shape_of_mem t (Elide_subset toks t ht)
  rw [hk] at hs
  obtain ⟨body, hv, hb⟩ := hs
  refine ⟨before, body, after, ?_, hb, hpos, hv⟩
  rw [hsrc, hv]
  simp

/-! ## A block inside a program -/

theorem computeBlock_eq (n i o s : List Char) :
    Elide ((computeKeys n i o s).map mkToken) = computeBlock n i o ('"' :: (s ++ ['"'])) := rfl

theorem Lex_kinds {source : List Char} {emitted : List Token} (h : Lex source = .ok emitted) :
    ∀ t ∈ emitted, t.Kind = .String ∨ t.Kind = .Punct ∨ t.Kind = .Ident := by
  obtain ⟨toks, -, rfl⟩ := Tokenize_of_Lex h
  intro t ht
  have := (List.mem_filter.1 ht).2
  cases hk : t.Kind <;> simp [hk, isElided] at this ⊢

theorem Lex_spans {source : List Char} {emitted : List Token} (h : Lex source = .ok emitted) :
    Spans Position.start source emitted := by
  obtain ⟨toks, ht, rfl⟩ := Tokenize_of_Lex h
  exact lexTokens_spans _ _ _ _ ht

/-- C1 (as stated, refuted): the parse of the canonical source is not a program
whose compute node has the code `y = x * 2` without its quotes. -/
theorem canonical_code_is_not_unquoted :
    ¬ ∃ ag : AgentNode, ParseString canonicalInput =
      .program ⟨[ ⟨some ⟨"double".toList, ⟨"x".toList, "y".toList, "y = x * 2".toList⟩⟩, none⟩,
                  ⟨none, some ag⟩ ]⟩ := by
  rintro ⟨ag, h⟩
  rw [ParseString_canonicalInput] at h
  revert h
  simp only [canonicalProgram, ParseResult.program.injEq, Program.mk.injEq, List.cons.injEq,
    Node.mk.injEq, Option.some.injEq, ComputeNode.mk.injEq, ComputeBody.mk.injEq]
  intro h
  exact absurd h.1.1.2.2.2 (by decide)

/-- C1 (amended): the canonical source parses to exactly two nodes in order: a
Compute node named `double` with input `x`, output `y` and the code literal with
both its quotes, `"y = x * 2"`; then an Agent node named `printer` watching
`double.output`, with can_add `compute` and a code value (quotes included) that
contains `add_node`. -/
theorem canonical_parse :
    ∃ code : List Char,
      ParseString canonicalInput =
        .program ⟨[ ⟨some ⟨"double".toList,
                      ⟨"x".toList, "y".toList, "\"y = x * 2\"".toList⟩⟩, none⟩,
                    ⟨none, some ⟨"printer".toList,
                      ⟨"double.output".toList, "compute".toList, code⟩⟩⟩ ]⟩ ∧
      code = "\"if y > 10 \x7b add_node(\x27triple\x27, template: compute) \x7d\"".toList ∧
      "add_node".toList <:+: code := by
  refine ⟨_, ParseString_canonicalInput, rfl, ?_⟩
  exact ⟨"\"if y > 10 \x7b ".toList, "(\x27triple\x27, template: compute) \x7d\"".toList, by decide⟩

/-- C2 (as stated, refuted): for a one-node source whose literal is `"d"`, the
code field is the three characters `"d"`, not the one character between the
quotes. -/
theorem code_field_keeps_quotes :
    ParseString "compute a \x7b input: b output: c code: \"d\" \x7d" =
        .program ⟨[⟨some ⟨"a".toList, ⟨"b".toList, "c".toList, "\"d\"".toList⟩⟩, none⟩]⟩ ∧
      "\"d\"".toList ≠ "d".toList ∧ "\"d\"".toList.head? = some '"' := by
  decide

/-- C2 (amended): in every successful parse, the code field of every node is the
string literal exactly as written in the source, both quotes included. The
tokens the lexer returned split into one block per node, in order; each block
ends with the tokens `code`, `:`, a String token and the closing brace; that
String token stands in the source at its position as an opening double quote, a
body without any double quote and the closing double quote; and the code field
of the node, compute or agent, is that whole text. -/
theorem code_field_is_whole_literal (input : String) (P : Program)
    (h : ParseString input = .program P) :
    ∃ (emitted : List Token) (blocks : List (List Token)),
      Lex input.toList = .ok emitted ∧ emitted = blocks.flatten ∧
        List.Forall₂ (CodeAsWritten input.toList) blocks P.Nodes := by
  obtain ⟨toks, ht, -, hp, -⟩ := ParseString_eq_program h
  obtain ⟨blocks, hb, hf⟩ := hp.blocks
  refine ⟨Elide toks, blocks, Lex_of_Tokenize ht, hb, ?_⟩
  refine forall₂_imp_mem hf ?_
  intro blk hblk n hnp
  obtain ⟨front, tcode, tcolon, t, closing, hsplit, h1, h2, h3, h4, h5, h6⟩ := hnp.code_token
  have hmem : t ∈ Elide toks := by
    rw [hb]
    refine List.mem_flatten.2 ⟨blk, hblk, ?_⟩
    rw [hsplit]
    simp
  obtain ⟨before, body, after, hs, hq, hpos, hv⟩ := string_token_in_source ht hmem h3
  refine ⟨front, tcode, tcolon, t, closing, before, body, after, hsplit, h1, h2, h3, h4, hs, hq,
    hpos, hv, ?_, ?_, ?_⟩
  · rcases hnp.one_member with ⟨hc, -⟩ | ⟨-, ha⟩
    · exact Or.inl hc
    · exact Or.inr ha
  · intro c hc
    rw [h5 c hc, hv]
  · intro a ha
    rw [h6 a ha, hv]

/-- C2, at a concrete source with two nodes: the code fields are the literals
`"go"` and `""` as they stand in the source. -/
theorem code_field_is_whole_literal_witness :
    ∃ (emitted : List Token) (blocks : List (List Token)),
      Lex "agent p\x7bwatches:a.b can_add:c code:\"go\"\x7d compute q\x7binput:x output:y code:\"\"\x7d".toList =
          .ok emitted ∧ emitted = blocks.flatten ∧
        List.Forall₂
          (CodeAsWritten
            "agent p\x7bwatches:a.b can_add:c code:\"go\"\x7d compute q\x7binput:x output:y code:\"\"\x7d".toList)
          blocks
          [⟨none, some ⟨"p".toList, ⟨"a.b".toList, "c".toList, "\"go\"".toList⟩⟩⟩,
            ⟨some ⟨"q".toList, ⟨"x".toList, "y".toList, "\"\"".toList⟩⟩, none⟩] :=
  code_field_is_whole_literal
    "agent p\x7bwatches:a.b can_add:c code:\"go\"\x7d compute q\x7binput:x output:y code:\"\"\x7d"
    ⟨[⟨none, some ⟨"p".toList, ⟨"a.b".toList, "c".toList, "\"go\"".toList⟩⟩⟩,
      ⟨some ⟨"q".toList, ⟨"x".toList, "y".toList, "\"\"".toList⟩⟩, none⟩]⟩ (by decide)

/-- C3 (as stated, refuted): a source that is one `//` comment with no newline
after it does not parse; the lexer fails at its first character. -/
theorem comment_without_newline_fails :
    ParseString "// note" = .lexError ⟨⟨0, 1, 1⟩⟩ := by
  decide

/-- C3 (amended): every source made only of whitespace of the class `\s` and of
`//` comments that each end with their newline (the empty source included)
parses to the program with no nodes. -/
theorem blank_source_parses_empty (input : String) (h : Blank input.toList) :
    ParseString input = .program ⟨[]⟩ := by
  obtain ⟨toks, hl, he⟩ := h.lexes
  rw [ParseString_of_lexes input toks hl, he, parseProgram_nil]

/-- C3, at a concrete source: a space, a comment line, a tab. -/
theorem blank_source_parses_empty_witness :
    Blank (String.mk [' ', '/', '/', 'c', '\n', '\t']).toList ∧
      ParseString (String.mk [' ', '/', '/', 'c', '\n', '\t']) = .program ⟨[]⟩ :=
  have hb : Blank (String.mk [' ', '/', '/', 'c', '\n', '\t']).toList :=
    Blank.space ' ' _ (by decide)
      (Blank.comment ['c'] ['\t'] (by decide) (Blank.space '\t' _ (by decide) Blank.nil))
  ⟨hb, blank_source_parses_empty _ hb⟩

/-- C4: when a source parses to `P`, inserting whitespace and comment lines at
a boundary between tokens of its scan gives a source that parses to the same `P`. -/
theorem insert_blank_at_token_boundary (pre ins post : List Char) (P : Program)
    (t1 t2 : List Token)
    (hparse : ParseString (String.mk (pre ++ post)) = .program P)
    (htok : Tokenize (pre ++ post) = .ok (t1 ++ t2))
    (hbound : (t1.map Token.Value).flatten = pre)
    (hins : Blank ins) :
    ParseString (String.mk (pre ++ ins ++ post)) = .program P := by
  by_cases h0 : ins = []
  · subst h0
    simpa using hparse
  · have hl := lexes_of_Tokenize htok
    obtain ⟨hl1, hl2⟩ := Lexes.split t1 pre post t2 hl hbound
    obtain ⟨ti, hli, hei⟩ := hins.lexes
    obtain ⟨ta, hla, hea⟩ := hl1.append ins ti hli (fun x y _ hy _ => hins.head_not_ident y hy)
    obtain ⟨tb, hlb, heb⟩ := hla.append post t2 hl2 (by
      intro x y hx _ hxi
      rw [List.getLast?_append_of_ne_nil _ h0] at hx
      rw [hins.last x hx] at hxi
      cases hxi)
    rw [ParseString_of_lexes _ tb hlb, heb, hea, hei, List.append_nil, ← Elide_append,
      ← ParseString_of_lexes _ (t1 ++ t2) hl]
    exact hparse

/-- C4, at a concrete source: a space and a comment line between `a` and `{`. -/
theorem insert_blank_at_token_boundary_witness :
    ParseString
        (String.mk ("compute a".toList ++ [' ', '/', '/', 'x', '\n'] ++
          "\x7binput:b output:c code:\"d\"\x7d".toList)) =
      .program ⟨[⟨some ⟨"a".toList, ⟨"b".toList, "c".toList, "\"d\"".toList⟩⟩, none⟩]⟩ :=
  insert_blank_at_token_boundary "compute a".toList [' ', '/', '/', 'x', '\n']
    "\x7binput:b output:c code:\"d\"\x7d".toList
    ⟨[⟨some ⟨"a".toList, ⟨"b".toList, "c".toList, "\"d\"".toList⟩⟩, none⟩]⟩
    [⟨.Ident, "compute".toList, ⟨0, 1, 1⟩⟩, ⟨.whitespace, " ".toList, ⟨7, 1, 8⟩⟩,
      ⟨.Ident, "a".toList, ⟨8, 1, 9⟩⟩]
    [⟨.Punct, "\x7b".toList, ⟨9, 1, 10⟩⟩, ⟨.Ident, "input".toList, ⟨10, 1, 11⟩⟩,
      ⟨.Punct, ":".toList, ⟨15, 1, 16⟩⟩, ⟨.Ident, "b".toList, ⟨16, 1, 17⟩⟩,
      ⟨.whitespace, " ".toList, ⟨17, 1, 18⟩⟩, ⟨.Ident, "output".toList, ⟨18, 1, 19⟩⟩,
      ⟨.Punct, ":".toList, ⟨24, 1, 25⟩⟩, ⟨.Ident, "c".toList, ⟨25, 1, 26⟩⟩,
      ⟨.whitespace, " ".toList, ⟨26, 1, 27⟩⟩, ⟨.Ident, "code".toList, ⟨27, 1, 28⟩⟩,
      ⟨.Punct, ":".toList, ⟨31, 1, 32⟩⟩, ⟨.String, "\"d\"".toList, ⟨32, 1, 33⟩⟩,
      ⟨.Punct, "\x7d".toList, ⟨35, 1, 36⟩⟩]
    (by decide) rfl (by decide)
    (Blank.space ' ' _ (by decide) (Blank.comment ['x'] [] (by decide) Blank.nil))

/-- C5 (as stated, refuted): a source can contain `#` and still parse, when the
`#` is inside a string literal. -/
theorem hash_inside_literal_parses :
    OutsideRules '#' ∧
      '#' ∈ "compute a \x7b input: b output: c code: \"#\" \x7d".toList ∧
      ParseString "compute a \x7b input: b output: c code: \"#\" \x7d" =
        .program ⟨[⟨some ⟨"a".toList, ⟨"b".toList, "c".toList, "\"#\"".toList⟩⟩, none⟩]⟩ :=
  ⟨⟨by decide, by decide, by decide, by decide, by decide⟩, by decide, by decide⟩

/-- C5 (amended): when the text before a character that no rule names scans
without error (so the character stands where a token has to start), the parse
fails with a lexer error whose position is that of the character. -/
theorem outside_character_is_lex_error (pre rest : List Char) (c : Char) (toks : List Token)
    (hpre : Tokenize pre = .ok toks) (hc : OutsideRules c) :
    ParseString (String.mk (pre ++ c :: rest)) = .lexError ⟨Position.start.Advance pre⟩ := by
  have := lexTokens_stuck (lexes_of_Tokenize hpre) ((pre ++ c :: rest).length + 1)
    Position.start c rest hc (Nat.lt_succ_self _)
  unfold ParseString Tokenize
  show (match lexTokens ((pre ++ c :: rest).length + 1) Position.start (pre ++ c :: rest) with
    | .error e => ParseResult.lexError e
    | .ok toks => parseProgram (Elide toks)) = _
  rw [this]

/-- C5, at a concrete source: `#` after `compute a` and a newline, at offset 10,
line 2, column 1. -/
theorem outside_character_is_lex_error_witness :
    ParseString (String.mk ("compute a\n".toList ++ '#' :: " b".toList)) =
      .lexError ⟨⟨10, 2, 1⟩⟩ :=
  outside_character_is_lex_error "compute a\n".toList " b".toList '#'
    [⟨.Ident, "compute".toList, ⟨0, 1, 1⟩⟩, ⟨.whitespace, " ".toList, ⟨7, 1, 8⟩⟩,
      ⟨.Ident, "a".toList, ⟨8, 1, 9⟩⟩, ⟨.whitespace, "\n".toList, ⟨9, 1, 10⟩⟩]
    rfl ⟨by decide, by decide, by decide, by decide, by decide⟩

/-- C6 (as stated) fails in its last part: for the source
`compute a { input: b output: c code: "d" }`, which parses, the source without
its final closing brace gives a parse error, and the parse error comes with a
program value: the result is not "no Program". -/
theorem parse_error_returns_partial_program :
    ParseString "compute a \x7b input: b output: c code: \"d\" \x7d" =
        .program ⟨[⟨some ⟨"a".toList, ⟨"b".toList, "c".toList, "\"d\"".toList⟩⟩, none⟩]⟩ ∧
      ParseString "compute a \x7b input: b output: c code: \"d\" " = .parseError ∧
      (ParseString "compute a \x7b input: b output: c code: \"d\" ").programReturned = true := by
  decide

/-- C6 (amended): when a source parses, deleting its final closing-brace token
gives a source on which the parse fails with a parse error, not a lexer error;
the error is returned, a partial program is returned with it, and `main` takes
its error branch, printing no node. -/
theorem drop_final_brace_is_parse_error (pre post : List Char) (P : Program)
    (t1 t2 : List Token) (rb : Token)
    (hparse : ParseString (String.mk (pre ++ '\x7d' :: post)) = .program P)
    (htok : Tokenize (pre ++ '\x7d' :: post) = .ok (t1 ++ rb :: t2))
    (hbound : (t1.map Token.Value).flatten = pre)
    (hfinal : ∀ t ∈ t2, t.Value ≠ ['\x7d']) :
    ParseString (String.mk (pre ++ post)) = .parseError ∧
      (∀ e, ParseString (String.mk (pre ++ post)) ≠ .lexError e) ∧
      (ParseString (String.mk (pre ++ post))).errorReturned = true ∧
      (ParseString (String.mk (pre ++ post))).programReturned = true ∧
      mainOn (String.mk (pre ++ post)) = .errorBranch .parseError := by
  have key : ParseString (String.mk (pre ++ post)) = .parseError := by
    have hl := lexes_of_Tokenize htok
    obtain ⟨hl1, hl2⟩ := Lexes.split t1 pre _ _ hl hbound
    obtain ⟨r, hd, hs, -, hl3⟩ := hl2.inv_cons
    obtain ⟨c, cs, hv, hst⟩ := hs.head
    rw [hv, List.cons_append, List.cons.injEq] at hd
    obtain ⟨rfl, hpost⟩ := hd
    have hk : rb.Kind = .Punct := startsWith_punct hst (by decide)
    rw [hk] at hs
    obtain ⟨c1, hv1, -⟩ := hs
    rw [hv1, List.cons.injEq] at hv
    obtain ⟨rfl, rfl⟩ := hv
    simp only [List.nil_append] at hpost
    subst hpost
    -- the grammar saw the tokens of `pre`, the brace, and nothing after it
    rw [ParseString_of_lexes _ _ hl] at hparse
    have hpp := ((parseProgram_eq_program _ _).1 hparse).1
    rw [Elide_append, Elide_cons_kept _ (by rw [hk]; rfl)] at hpp
    have he2 : Elide t2 = [] := by
      by_contra hne
      obtain ⟨x, hx⟩ : ∃ x, (Elide t2).getLast? = some x := by
        cases hg : (Elide t2).getLast? with
        | none => exact absurd (List.getLast?_eq_none_iff.1 hg) hne
        | some x => exact ⟨x, rfl⟩
      have hlast : (Elide t1 ++ rb :: Elide t2).getLast? = some x := by
        rw [List.getLast?_append_of_ne_nil _ (by simp)]
        cases he : Elide t2 with
        | nil => exact absurd he hne
        | cons y ys =>
          rw [he] at hx
          rw [List.getLast?_cons_cons]
          exact hx
      exact hfinal x (Elide_subset t2 x (List.mem_of_getLast?_eq_some hx))
        (hpp.last_value x hlast)
    rw [he2] at hpp
    -- without the brace the elided stream is the tokens of `pre`
    obtain ⟨tb, hlb, heb⟩ := hl1.append post t2 hl3
      (fun x y _ hy _ => hl3.head_of_elided he2 y hy)
    rw [ParseString_of_lexes _ tb hlb, heb, he2, List.append_nil]
    rcases parseProgram_cases (Elide t1) with h | ⟨P1, h⟩
    · exact h
    · obtain ⟨h1, h2⟩ := (parseProgram_eq_program _ _).1 h
      have := parseProgram_snoc_brace h1 h2 rb hv1
      rw [Elide_append, Elide_cons_kept _ (by rw [hk]; rfl), he2, this] at hparse
      cases hparse
  refine ⟨key, ?_, ?_, ?_, ?_⟩
  · intro e he
    rw [key] at he
    cases he
  · rw [key]; rfl
  · rw [key]; rfl
  · unfold mainOn
    rw [key]

/-- C6, at a concrete source: the one-node source without its closing brace. -/
theorem drop_final_brace_is_parse_error_witness :
    ParseString (String.mk ("compute a\x7binput:b output:c code:\"d\"".toList ++ "\n".toList)) =
        .parseError ∧
      (ParseString (String.mk
        ("compute a\x7binput:b output:c code:\"d\"".toList ++ "\n".toList))).programReturned =
          true ∧
      mainOn (String.mk ("compute a\x7binput:b output:c code:\"d\"".toList ++ "\n".toList)) =
        .errorBranch .parseError :=
  have h := drop_final_brace_is_parse_error "compute a\x7binput:b output:c code:\"d\"".toList
    "\n".toList
    ⟨[⟨some ⟨"a".toList, ⟨"b".toList, "c".toList, "\"d\"".toList⟩⟩, none⟩]⟩
    [⟨.Ident, "compute".toList, ⟨0, 1, 1⟩⟩, ⟨.whitespace, " ".toList, ⟨7, 1, 8⟩⟩,
      ⟨.Ident, "a".toList, ⟨8, 1, 9⟩⟩,
      ⟨.Punct, "\x7b".toList, ⟨9, 1, 10⟩⟩, ⟨.Ident, "input".toList, ⟨10, 1, 11⟩⟩,
      ⟨.Punct, ":".toList, ⟨15, 1, 16⟩⟩, ⟨.Ident, "b".toList, ⟨16, 1, 17⟩⟩,
      ⟨.whitespace, " ".toList, ⟨17, 1, 18⟩⟩, ⟨.Ident, "output".toList, ⟨18, 1, 19⟩⟩,
      ⟨.Punct, ":".toList, ⟨24, 1, 25⟩⟩, ⟨.Ident, "c".toList, ⟨25, 1, 26⟩⟩,
      ⟨.whitespace, " ".toList, ⟨26, 1, 27⟩⟩, ⟨.Ident, "code".toList, ⟨27, 1, 28⟩⟩,
      ⟨.Punct, ":".toList, ⟨31, 1, 32⟩⟩, ⟨.String, "\"d\"".toList, ⟨32, 1, 33⟩⟩]
    [⟨.whitespace, "\n".toList, ⟨36, 1, 37⟩⟩]
    ⟨.Punct, "\x7d".toList, ⟨35, 1, 36⟩⟩
    (by decide) rfl (by decide) (by decide)
  ⟨h.1, h.2.2.2.1, h.2.2.2.2⟩

/-- C7: for all identifiers `a` and `b` (and any name, can_add identifier and
quote-free code text), the agent block whose watches field is written `a.b` parses
to an Agent node whose `Watches` is the one string `a ++ "." ++ b`. -/
theorem watches_is_joined_text (n a b c s : List Char) (hn : Shape .Ident n)
    (ha : Shape .Ident a) (hb : Shape .Ident b) (hc : Shape .Ident c)
    (hs : ∀ x ∈ s, x ≠ '"') :
    ParseString (String.mk ("agent ".toList ++ n ++ " \x7b watches: ".toList ++ a ++ ".".toList
        ++ b ++ " can_add: ".toList ++ c ++ " code: \"".toList ++ s ++ "\" \x7d".toList)) =
      .program ⟨[⟨none, some ⟨n, ⟨a ++ ".".toList ++ b, c, '"' :: (s ++ ['"'])⟩⟩⟩]⟩ := by
  have h := ParseString_agentText n a b c s hn ha hb hc hs
  have e : agentText n a b c s = "agent ".toList ++ n ++ " \x7b watches: ".toList ++ a ++
      ".".toList ++ b ++ " can_add: ".toList ++ c ++ " code: \"".toList ++ s ++
      "\" \x7d".toList := by
    simp [agentText, agentKeys, render]
  rw [e] at h
  exact h

/-- C7, at `watches: double.output`: the field is exactly `double.output`. -/
theorem watches_is_joined_text_witness :
    ParseString (String.mk ("agent ".toList ++ "printer".toList ++ " \x7b watches: ".toList ++
        "double".toList ++ ".".toList ++ "output".toList ++ " can_add: ".toList ++
        "compute".toList ++ " code: \"".toList ++ "go".toList ++ "\" \x7d".toList)) =
      .program ⟨[⟨none, some ⟨"printer".toList,
        ⟨"double.output".toList, "compute".toList, "\"go\"".toList⟩⟩⟩]⟩ :=
  watches_is_joined_text "printer".toList "double".toList "output".toList "compute".toList
    "go".toList (Shape.ident_lit _ _ (by decide) (by decide))
    (Shape.ident_lit _ _ (by decide) (by decide)) (Shape.ident_lit _ _ (by decide) (by decide))
    (Shape.ident_lit _ _ (by decide) (by decide)) (by decide)

/-- C9 (as stated, refuted): the source of 1000000 compute blocks tokenizes, its
elided token sequence is derivable from the grammar, and yet its parse fails. -/
theorem derivable_source_at_bound_fails :
    ∃ toks, Tokenize overflowSource = .ok toks ∧
      DerivesProgram (Elide toks) MaxIterations ∧
      ParseString (String.mk overflowSource) = .parseError :=
  overflowSource_fails

/-- C9 (amended): for every source whose tokenization succeeds, the parse
succeeds exactly when the elided token sequence is derivable from the grammar
`Program := Node*` with fewer than `MaxIterations` (1000000) nodes; every other
token sequence (a field omitted, reordered, added or unknown, a token left over)
makes the parse fail with a parse error. -/
theorem parse_succeeds_iff_derivable_below_bound (input : String) (toks : List Token)
    (htok : Tokenize input.toList = .ok toks) :
    ((∃ P, ParseString input = .program P) ↔
        ∃ n, n < MaxIterations ∧ DerivesProgram (Elide toks) n) ∧
      ((¬ ∃ n, n < MaxIterations ∧ DerivesProgram (Elide toks) n) →
        ParseString input = .parseError) := by
  have hps : ParseString input = parseProgram (Elide toks) := by
    unfold ParseString
    rw [htok]
  have hiff : (∃ P, ParseString input = .program P) ↔
      ∃ n, n < MaxIterations ∧ DerivesProgram (Elide toks) n := by
    rw [hps]
    constructor
    · rintro ⟨P, hP⟩
      obtain ⟨h1, h2⟩ := (parseProgram_eq_program _ _).1 hP
      exact ⟨_, h2, derivesProgram_of_programParse h1⟩
    · rintro ⟨n, hn, hd⟩
      obtain ⟨vs, hp, hl⟩ := programParse_of_derivesProgram hd
      exact ⟨⟨vs⟩, (parseProgram_eq_program _ _).2 ⟨hp, by rw [hl]; exact hn⟩⟩
  refine ⟨hiff, ?_⟩
  intro hno
  rcases parseProgram_cases (Elide toks) with h | ⟨P, h⟩
  · rw [hps]; exact h
  · exact absurd (hiff.1 ⟨P, by rw [hps]; exact h⟩) hno

/-- C9, at a concrete source: a compute block whose output field is missing is
not derivable, and its parse is a parse error. -/
theorem parse_succeeds_iff_derivable_below_bound_witness :
    ((∃ P, ParseString "compute a \x7b input: b \x7d" = .program P) ↔
        ∃ n, n < MaxIterations ∧ DerivesProgram (Elide
          [⟨.Ident, "compute".toList, ⟨0, 1, 1⟩⟩, ⟨.whitespace, " ".toList, ⟨7, 1, 8⟩⟩,
            ⟨.Ident, "a".toList, ⟨8, 1, 9⟩⟩, ⟨.whitespace, " ".toList, ⟨9, 1, 10⟩⟩,
            ⟨.Punct, "\x7b".toList, ⟨10, 1, 11⟩⟩, ⟨.whitespace, " ".toList, ⟨11, 1, 12⟩⟩,
            ⟨.Ident, "input".toList, ⟨12, 1, 13⟩⟩, ⟨.Punct, ":".toList, ⟨17, 1, 18⟩⟩,
            ⟨.whitespace, " ".toList, ⟨18, 1, 19⟩⟩, ⟨.Ident, "b".toList, ⟨19, 1, 20⟩⟩,
            ⟨.whitespace, " ".toList, ⟨20, 1, 21⟩⟩, ⟨.Punct, "\x7d".toList, ⟨21, 1, 22⟩⟩]) n) ∧
      ((¬ ∃ n, n < MaxIterations ∧ DerivesProgram (Elide
          [⟨.Ident, "compute".toList, ⟨0, 1, 1⟩⟩, ⟨.whitespace, " ".toList, ⟨7, 1, 8⟩⟩,
            ⟨.Ident, "a".toList, ⟨8, 1, 9⟩⟩, ⟨.whitespace, " ".toList, ⟨9, 1, 10⟩⟩,
            ⟨.Punct, "\x7b".toList, ⟨10, 1, 11⟩⟩, ⟨.whitespace, " ".toList, ⟨11, 1, 12⟩⟩,
            ⟨.Ident, "input".toList, ⟨12, 1, 13⟩⟩, ⟨.Punct, ":".toList, ⟨17, 1, 18⟩⟩,
            ⟨.whitespace, " ".toList, ⟨18, 1, 19⟩⟩, ⟨.Ident, "b".toList, ⟨19, 1, 20⟩⟩,
            ⟨.whitespace, " ".toList, ⟨20, 1, 21⟩⟩, ⟨.Punct, "\x7d".toList, ⟨21, 1, 22⟩⟩]) n) →
        ParseString "compute a \x7b input: b \x7d" = .parseError) :=
  parse_succeeds_iff_derivable_below_bound "compute a \x7b input: b \x7d" _ rfl

/-- C10: in every successful parse, every node has exactly one of its members
`Compute` and `Agent` set: never both, never neither. -/
theorem node_has_exactly_one_member (input : String) (P : Program)
    (h : ParseString input = .program P) :
    ∀ n ∈ P.Nodes,
      (n.Compute ≠ none ∧ n.Agent = none) ∨ (n.Compute = none ∧ n.Agent ≠ none) := by
  obtain ⟨toks, -, -, hp, -⟩ := ParseString_eq_program h
  intro n hn
  obtain ⟨nt, hnp, -⟩ := hp.node_of_mem n hn
  rcases hnp.one_member with ⟨h1, h2⟩ | ⟨h1, h2⟩
  · left
    refine ⟨?_, h2⟩
    intro h0
    rw [h0] at h1
    cases h1
  · right
    refine ⟨h1, ?_⟩
    intro h0
    rw [h0] at h2
    cases h2

/-- C10, on a one-block source: its node has `Compute` set and `Agent` unset. -/
theorem node_has_exactly_one_member_witness :
    ((⟨some ⟨"a".toList, ⟨"b".toList, "c".toList, "\"d\"".toList⟩⟩, none⟩ : Node).Compute ≠ none ∧
        (⟨some ⟨"a".toList, ⟨"b".toList, "c".toList, "\"d\"".toList⟩⟩, none⟩ : Node).Agent = none) ∨
      ((⟨some ⟨"a".toList, ⟨"b".toList, "c".toList, "\"d\"".toList⟩⟩, none⟩ : Node).Compute = none ∧
        (⟨some ⟨"a".toList, ⟨"b".toList, "c".toList, "\"d\"".toList⟩⟩, none⟩ : Node).Agent ≠ none) :=
  node_has_exactly_one_member "compute a \x7b input: b output: c code: \"d\" \x7d"
    ⟨[⟨some ⟨"a".toList, ⟨"b".toList, "c".toList, "\"d\"".toList⟩⟩, none⟩]⟩ (by decide)
    _ (List.mem_singleton.2 rfl)

/-- C11 (as stated, refuted): one compute block parses, 999999 compute blocks
parse, and the concatenation of the two sources, 1000000 blocks, does not. -/
theorem concatenation_at_bound_fails :
    ∃ P1 P2, ParseString (String.mk overflowBlock) = .program P1 ∧
      ParseString (String.mk almostOverflowSource) = .program P2 ∧
      ParseString (String.mk overflowBlock ++ String.mk almostOverflowSource) =
        .parseError :=
  append_at_bound_fails

/-- C11 (amended): node order follows declaration order. When `s1` parses to
`P1`, `s2` parses to `P2` and the two programs have fewer than `MaxIterations`
(1000000) nodes together, `s1 ++ s2` parses to the nodes of `P1` followed by the
nodes of `P2`, unchanged. -/
theorem concatenation_preserves_node_order (s1 s2 : String) (P1 P2 : Program)
    (h1 : ParseString s1 = .program P1) (h2 : ParseString s2 = .program P2)
    (hlen : P1.Nodes.length + P2.Nodes.length < MaxIterations) :
    ParseString (s1 ++ s2) = .program ⟨P1.Nodes ++ P2.Nodes⟩ :=
  ParseString_append s1 s2 P1 P2 h1 h2 hlen

/-- C11, at two concrete sources: a compute block followed by an agent block. -/
theorem concatenation_preserves_node_order_witness :
    ParseString ("compute a \x7b input: b output: c code: \"d\" \x7d\n" ++
        "agent p \x7b watches: a.c can_add: q code: \"e\" \x7d\n") =
      .program ⟨[⟨some ⟨"a".toList, ⟨"b".toList, "c".toList, "\"d\"".toList⟩⟩, none⟩] ++
        [⟨none, some ⟨"p".toList, ⟨"a.c".toList, "q".toList, "\"e\"".toList⟩⟩⟩]⟩ :=
  concatenation_preserves_node_order
    "compute a \x7b input: b output: c code: \"d\" \x7d\n"
    "agent p \x7b watches: a.c can_add: q code: \"e\" \x7d\n"
    ⟨[⟨some ⟨"a".toList, ⟨"b".toList, "c".toList, "\"d\"".toList⟩⟩, none⟩]⟩
    ⟨[⟨none, some ⟨"p".toList, ⟨"a.c".toList, "q".toList, "\"e\"".toList⟩⟩⟩]⟩
    (by decide) (by decide) (by decide)

/-- C13: the start classes of the five rules are pairwise disjoint, at most one
rule of the table matches at any text, and tokenizing with the rules listed in
any other order gives the same tokens or the same failure as the order of `main`. -/
theorem rule_order_is_irrelevant (rules : List Rule) (hp : rules.Perm Root)
    (source : List Char) :
    (∀ c ty1 ty2, startsWith ty1 c → startsWith ty2 c → ty1 = ty2) ∧
      (∀ data, ∀ r1 ∈ Root, ∀ r2 ∈ Root, (r1.Pattern data).isSome = true →
        (r2.Pattern data).isSome = true → r1 = r2) ∧
      TokenizeWith rules source = Tokenize source := by
  refine ⟨?_, ?_, TokenizeWith_perm hp source⟩
  · intro c ty1 ty2 h1 h2
    rw [startsWith_startKind h1, startsWith_startKind h2]
  · intro data r1 h1 r2 h2 m1 m2
    exact Root_exclusive data h1 h2 m1 m2

/-- C13, with the table reversed (`Ident` first, `comment` last). -/
theorem rule_order_is_irrelevant_witness :
    TokenizeWith Root.reverse "compute a // x\n".toList = Tokenize "compute a // x\n".toList :=
  (rule_order_is_irrelevant Root.reverse (List.reverse_perm Root) _).2.2

/-- C14 (as stated) fails: the lexer returns no comment and no whitespace
tokens. For the source `a // c` / `b` it returns the two tokens `a` at offset 0
and `b` at offset 7; their texts concatenate to `ab`, not to the source, and the
offset of `b` is not the length, 1, of the token before it. -/
theorem returned_tokens_skip_blank_text :
    Lex "a // c\nb".toList =
        .ok [⟨.Ident, "a".toList, ⟨0, 1, 1⟩⟩, ⟨.Ident, "b".toList, ⟨7, 2, 1⟩⟩] ∧
      (([⟨.Ident, "a".toList, ⟨0, 1, 1⟩⟩, ⟨.Ident, "b".toList, ⟨7, 2, 1⟩⟩] :
          List Token).map Token.Value).flatten = "ab".toList ∧
      "ab".toList ≠ "a // c\nb".toList ∧
      (⟨.Ident, "b".toList, ⟨7, 2, 1⟩⟩ : Token).Pos.Offset ≠
        byteLen (([⟨.Ident, "a".toList, ⟨0, 1, 1⟩⟩] : List Token).map Token.Value).flatten :=
  ⟨rfl, by decide, by decide, by decide⟩

/-- C14 (amended): tokenization loses no text. When the lexer returns the
tokens of a source, none of them is a comment or whitespace token, and the
source is laid out around them: before each token a run of whitespace and
comments that was consumed without a token, then the text of the token, and
after the last token only such a run. Each token stands in the source at its
position: its position is the start position advanced over all the source text
before it, and its offset is the byte length of that text. -/
theorem tokenization_is_lossless (source : List Char) (emitted : List Token)
    (h : Lex source = .ok emitted) :
    Spans Position.start source emitted ∧
      (∀ t ∈ emitted, t.Kind = .String ∨ t.Kind = .Punct ∨ t.Kind = .Ident) ∧
      ∀ (e1 : List Token) (t : Token) (e2 : List Token), emitted = e1 ++ t :: e2 →
        ∃ before after, source = before ++ (t.Value ++ after) ∧
          t.Pos = Position.start.Advance before ∧ t.Pos.Offset = byteLen before := by
  refine ⟨Lex_spans h, Lex_kinds h, ?_⟩
  intro e1 t e2 he
  obtain ⟨before, after, h1, h2⟩ := (Lex_spans h).token_in_source e1 t e2 he
  refine ⟨before, after, h1, h2, ?_⟩
  rw [h2]
  simp [Position.Advance, Position.start]

/-- C14, at a concrete source: the token `b` of `a // c` / `b` stands at offset
7, after the seven bytes of the source before it. -/
theorem tokenization_is_lossless_witness :
    ∃ before after, "a // c\nb".toList = before ++ ("b".toList ++ after) ∧
      (⟨7, 2, 1⟩ : Position) = Position.start.Advance before ∧ 7 = byteLen before :=
  (tokenization_is_lossless "a // c\nb".toList
    [⟨.Ident, "a".toList, ⟨0, 1, 1⟩⟩, ⟨.Ident, "b".toList, ⟨7, 2, 1⟩⟩] rfl).2.2
    [⟨.Ident, "a".toList, ⟨0, 1, 1⟩⟩] ⟨.Ident, "b".toList, ⟨7, 2, 1⟩⟩ [] rfl

/-- C15: when the text before a double quote tokenizes on its own (the quote
stands where a token starts) and no double quote follows it, the parse fails with
a lexer error at the position of that quote: never a parse error, never a
program. -/
theorem unterminated_string_is_lex_error (pre rest : List Char) (toks : List Token)
    (hpre : Tokenize pre = .ok toks) (hrest : ∀ x ∈ rest, x ≠ '"') :
    ParseString (String.mk (pre ++ '"' :: rest)) = .lexError ⟨Position.start.Advance pre⟩ := by
  have := lexTokens_stuck_at (lexes_of_Tokenize hpre) ((pre ++ '"' :: rest).length + 1)
    Position.start '"' rest (matchFirst_open_quote rest hrest) (by decide) (by decide)
    (Nat.lt_add_one _)
  unfold ParseString Tokenize
  show (match lexTokens ((pre ++ '"' :: rest).length + 1) Position.start (pre ++ '"' :: rest) with
    | .error e => ParseResult.lexError e
    | .ok toks => parseProgram (Elide toks)) = _
  rw [this]

/-- C15, at a concrete source: the literal opened on the second line is never
closed; the error is at its opening quote, offset 4, line 2, column 3. -/
theorem unterminated_string_is_lex_error_witness :
    ParseString (String.mk ("a\n: ".toList ++ '"' :: "d \x7d\n".toList)) =
      .lexError ⟨⟨4, 2, 3⟩⟩ :=
  unterminated_string_is_lex_error "a\n: ".toList "d \x7d\n".toList
    [⟨.Ident, "a".toList, ⟨0, 1, 1⟩⟩, ⟨.whitespace, "\n".toList, ⟨1, 1, 2⟩⟩,
      ⟨.Punct, ":".toList, ⟨2, 2, 1⟩⟩, ⟨.whitespace, " ".toList, ⟨3, 2, 2⟩⟩]
    rfl (by decide)

set_option maxRecDepth 100000 in
/-- C16: the text embedded in `main` does not parse. The character at offset 38
is the `*` after `x`; no rule matches there, the parse is the lexer error at
that position (line 3, column 17), and `main` takes its error branch. -/
theorem main_input_is_lex_error :
    (mainInput.toList.drop 37).take 2 = "x*".toList ∧
      (∀ rest, matchFirst Root ('*' :: rest) = none) ∧
      Position.start.Advance (mainInput.toList.take 38) = ⟨38, 3, 17⟩ ∧
      ParseString mainInput = .lexError ⟨⟨38, 3, 17⟩⟩ ∧
      main = .errorBranch (.lexError ⟨⟨38, 3, 17⟩⟩) := by
  refine ⟨by decide, ?_, by decide, by decide, by decide⟩
  intro rest
  exact matchFirst_outside ⟨by decide, by decide, by decide, by decide, by decide⟩ rest

/-- C17: tokens are maximal within their rule. When a source tokenizes, no
identifier token is followed by an identifier character and no whitespace token
by a whitespace character; so when the source starts with a keyword directly
followed by identifier characters, its first token is one identifier that
contains them all, and the keyword literal does not match it. -/
theorem tokens_are_maximal (source : List Char) (toks : List Token)
    (h : Tokenize source = .ok toks) :
    (∀ (t1 : List Token) (t : Token) (t2 : List Token), toks = t1 ++ t :: t2 →
        (t.Kind = .Ident →
          ∀ c, (t2.map Token.Value).flatten.head? = some c → isIdentChar c = false) ∧
        (t.Kind = .whitespace →
          ∀ c, (t2.map Token.Value).flatten.head? = some c → isSpace c = false)) ∧
      (∀ (k tail rest : List Char) (t : Token) (more : List Token), k ∈ keywords →
        tail ≠ [] → (∀ x ∈ tail, isIdentChar x = true) → source = k ++ tail ++ rest →
        toks = t :: more →
          t.Kind = .Ident ∧ (∃ ext, t.Value = k ++ tail ++ ext) ∧
            literal k (t :: more) = .noMatch) := by
  have hl := lexes_of_Tokenize h
  constructor
  · intro t1 t t2 ht
    have hst := hl.stops_at t1 t t2 ht
    constructor
    · intro hk
      rw [hk] at hst
      exact hst
    · intro hk
      rw [hk] at hst
      exact hst
  · intro k tail rest t more hk htail hall hsrc ht
    rw [ht] at hl
    obtain ⟨h1, ext, h2⟩ := hl.ident_run k tail rest (keyword_is_ident hk) hall hsrc
    refine ⟨h1, ⟨ext, h2⟩, ?_⟩
    apply literal_cons_ne
    intro hv
    rw [hv] at h2
    have := congrArg List.length h2
    simp only [List.length_append] at this
    have : 0 < tail.length := List.length_pos.2 htail
    omega

/-- C17, at `computedouble`: one identifier token, and the source that starts
with it is a parse error since `compute` is not recognized. -/
theorem tokens_are_maximal_witness :
    ((⟨.Ident, "computedouble".toList, ⟨0, 1, 1⟩⟩ : Token).Kind = .Ident ∧
        (∃ ext, (⟨.Ident, "computedouble".toList, ⟨0, 1, 1⟩⟩ : Token).Value =
          "compute".toList ++ "double".toList ++ ext) ∧
        literal "compute".toList [⟨.Ident, "computedouble".toList, ⟨0, 1, 1⟩⟩] = .noMatch) ∧
      ParseString "computedouble \x7b input: a output: b code: \"c\" \x7d" = .parseError :=
  ⟨(tokens_are_maximal "computedouble".toList [⟨.Ident, "computedouble".toList, ⟨0, 1, 1⟩⟩]
      rfl).2 "compute".toList "double".toList [] _ [] (by decide) (by decide) (by decide)
      (by decide) rfl,
    by decide⟩

end Got
